import Mathlib

/-!
# icssh: a shallow embedding of the job-control engine

The development follows `src/src/helpers.c` and `src/src/icssh.c`.

* C strings are byte lists without the terminating NUL (`CStr`); `strcmp`
  is the libc comparison on them.
* The job descriptor (`job_info`, `proc_info`) and the background entry
  (`bgentry_t`) mirror the structures used by the sources; a linked list of
  nodes is a Lean `List`, the `length` field of `list_t` is kept as a separate
  integer exactly as the C code maintains it.
* `main`'s loop body is written in state-passing style: it takes the shell
  state and the answers of the operating system (`Env`) and returns the trace
  of observable actions together with how the iteration ended.
-/

namespace Icssh

/-! ## C strings -/

/-- A NUL-terminated C string: the bytes before the terminator. -/
structure CStr where
  bytes : List Nat
  nz : ∀ b ∈ bytes, b ≠ 0

instance : DecidableEq CStr := fun a b =>
  if h : a.bytes = b.bytes then
    isTrue (by cases a; cases b; cases h; rfl)
  else isFalse (fun e => h (congrArg CStr.bytes e))

/-- Byte-wise comparison of two NUL-terminated byte strings: the difference of
the first pair of bytes that differ, the end of a string reading as byte 0. -/
def strcmp_bytes : List Nat → List Nat → Int
  | [], [] => 0
  | [], y :: _ => 0 - (y : Int)
  | x :: _, [] => (x : Int) - 0
  | x :: xs, y :: ys => if x = y then strcmp_bytes xs ys else (x : Int) - (y : Int)

/-- The libc `strcmp`. -/
def strcmp (a b : CStr) : Int := strcmp_bytes a.bytes b.bytes

/-! ## Job descriptor -/

/-- One stage of a job (`proc_info`); `next_proc` is the tail of the list the
stage sits in. -/
structure proc_info where
  cmd : CStr
  argc : Int
  argv : List CStr
  err_file : Option CStr
deriving DecidableEq

/-- A parsed command line (`job_info`). `procs` is the linked list of stages
(`[]` is the NULL pointer). -/
structure job_info where
  line : CStr
  nproc : Int
  bg : Bool
  procs : List proc_info
  in_file : Option CStr
  out_file : Option CStr
deriving DecidableEq

/-- The value of `job->procs ? job->procs->err_file : NULL`. -/
def first_err_file (job : job_info) : Option CStr :=
  match job.procs with
  | [] => none
  | p :: _ => p.err_file

/-- One `if (a != NULL && b != NULL) { if (strcmp(a, b) == 0) ... }` test of
`validate_redirections`. -/
def same_file (a b : Option CStr) : Bool :=
  match a, b with
  | some x, some y => decide (strcmp x y = 0)
  | _, _ => false

/-- The function `validate_redirections` of helpers.c (lines 43-70); `none` is
the NULL job. -/
def validate_redirections (job : Option job_info) : Int :=
  match job with
  | none => 1
  | some job =>
    let in_file := job.in_file
    let out_file := job.out_file
    let err_file := first_err_file job
    if same_file in_file out_file then 0
    else if same_file in_file err_file then 0
    else if same_file out_file err_file then 0
    else 1

/-- Two redirection paths are both present and textually equal. -/
def conflict (a b : Option CStr) : Prop :=
  match a, b with
  | some x, some y => x.bytes = y.bytes
  | _, _ => False

instance (a b : Option CStr) : Decidable (conflict a b) := by
  unfold conflict
  split <;> infer_instance

/-! ## Background job table -/

/-- One background entry (`bgentry_t`): the owned job, the pid (of the last
stage for a pipeline) and the launch time in seconds. -/
structure bgentry_t where
  job : job_info
  pid : Int
  seconds : Int
deriving DecidableEq

/-- The list container (`list_t`): the chain of nodes from `head` and the
`length` field, which the C code updates by hand. -/
structure list_t where
  head : List bgentry_t
  length : Int
deriving DecidableEq

/-- The function `compare_bgentry` of helpers.c (lines 6-20); the constant
`0xBEEFCAFE` is read as a 32-bit `int`. -/
def compare_bgentry (a b : Option bgentry_t) : Int :=
  match a, b with
  | some entry_a, some entry_b =>
    if entry_a.seconds < entry_b.seconds then -1
    else if entry_a.seconds > entry_b.seconds then 1
    else 0
  | _, _ => (0xBEEFCAFE : Int) - 2 ^ 32

/-- Modelled from the spec: the list library (linkedlist.h, `InsertInOrder`) is
not among the sources. Spec 4.2: "insert-ordered(entry): inserts preserving
ascending-timestamp order". The walk from the head passes every node the
comparator ranks before the new one and stops at the first node it ranks
after it. The spec does not say on which side of a node that compares equal
the new node goes: `tie new node` answers that for each such node (true: the
walk passes it), so every placement among equal timestamps is covered. -/
def insert_sorted (cmp : Option bgentry_t → Option bgentry_t → Int)
    (tie : bgentry_t → bgentry_t → Bool) (e : bgentry_t) : List bgentry_t → List bgentry_t
  | [] => [e]
  | x :: xs =>
    if cmp (some e) (some x) < 0 then e :: x :: xs
    else if cmp (some e) (some x) = 0 ∧ tie e x = false then e :: x :: xs
    else x :: insert_sorted cmp tie e xs

/-- Modelled from the spec: `InsertInOrder(list, entry)` of the list library
(not among the sources), with the comparator the list was created with
(`CreateList(compare_bgentry, ...)`, icssh.c line 160) and the library's
placement `tie` among equal timestamps, which the spec leaves open; the
length grows by one. -/
def InsertInOrder (tie : bgentry_t → bgentry_t → Bool) (list : list_t) (e : bgentry_t) :
    list_t :=
  { head := insert_sorted compare_bgentry tie e list.head, length := list.length + 1 }

/-! ## Observable actions -/

/-- The message templates of icssh.h (not among the sources), by name. -/
inductive Msg
  | BG_TERM | RD_ERR | PIPE_ERR | PID_ERR | BG_ERR | DIR_ERR | EXEC_ERR | WAIT_ERR
deriving DecidableEq

/-- File descriptors the loop body handles. -/
inductive Fd
  | STDIN_FILENO
  | STDOUT_FILENO
  | STDERR_FILENO
  | pipefds (i : Nat) (j : Nat)
  | opened (fd : Int)
deriving DecidableEq

/-- Which `perror` call. -/
inductive PerrorTag
  | fork_error | pipe_error | waitpid
deriving DecidableEq

/-- The calls of the shell that are visible from outside, in program order. -/
inductive Event
  | waitpid (pid : Int) (options : Int)
  | kill (pid : Int) (sig : Int)
  | printf_BG_TERM (pid : Int) (line : CStr)
  | printf_line (line : CStr)
  | printf_status (status : Int)
  | printf_msg (m : Msg)
  | printf_EXEC_ERR (cmd : CStr)
  | fprintf_stderr (m : Msg)
  | PrintLinkedList (entries : List bgentry_t)
  | perror (tag : PerrorTag)
  | free_line
  | free_job (job : job_info)
  | free_bgentry
  | free_node
  | free_list
  | validate_input_NULL
  | fclose_rl_outstream
  | store_sigchld_received (v : Int)
  | pipe (i : Nat)
  | fork (ret : Int)
  | dup2 (oldfd : Fd) (newfd : Fd)
  | close (fd : Fd)
  | open_rdonly (path : CStr)
  | open_trunc (path : CStr)
  | execvp (cmd : CStr) (argv : List CStr)
  | pids_store (i : Nat) (v : Int)
  | pids_load (i : Nat)
  | getenv_HOME
  | chdir (dir : CStr)
  | getcwd
  | time
deriving DecidableEq

/-- The function `delete_bgentry` of helpers.c (lines 23-34). -/
def delete_bgentry (entry : Option bgentry_t) : List Event :=
  match entry with
  | none => []
  | some bg_entry => [.free_job bg_entry.job, .free_bgentry]

/-- The `waitpid` option `WNOHANG` (Linux value). -/
def WNOHANG : Int := 1

/-- The signal number of `SIGKILL`. -/
def SIGKILL : Int := 9

/-- The exit code `EXIT_FAILURE`. -/
def EXIT_FAILURE : Int := 1

/-! ## Shell state and the answers of the operating system -/

/-- The variables of icssh.c that live across loop iterations. -/
structure ShellState where
  bg_list : list_t
  last_exit_status : Int
  sigchld_received : Int
  max_bgprocs : Int
deriving DecidableEq

/-- What the environment answers during one loop iteration. -/
structure Env where
  /-- SIGCHLD is delivered before the flag is tested at the top of the loop -/
  sigchld_before_check : Bool
  /-- SIGCHLD is delivered while `reap_bg_jobs` runs, after its last `waitpid` -/
  sigchld_during_reap : Bool
  /-- SIGCHLD is delivered later in the iteration -/
  sigchld_later : Bool
  /-- return values of the successive `waitpid(-1, &status, WNOHANG)` calls that
  find a child; the call after the last one returns 0 or -1 -/
  reaped : List Int
  /-- return value of `pipe(pipefds[i])` -/
  pipe_ret : Nat → Int
  /-- return value of the `fork()` of stage `i` -/
  fork_ret : Nat → Int
  /-- return value and stored status of the blocking `waitpid` number `i` -/
  waitpid_ret : Nat → Int × Nat
  /-- return value of `open` on a path -/
  open_ret : CStr → Int
  /-- whether `execvp` fails (returns -1) instead of replacing the image -/
  execvp_fails : Bool
  /-- value of `time(NULL)` -/
  time_now : Int
  getenv_HOME : Option CStr
  chdir_ret : CStr → Int
  getcwd_ret : Option CStr
  /-- what the array `pids` holds when the iteration starts -/
  pids_before : Nat → Int
  /-- where `InsertInOrder` puts a new entry relative to one with the same
  timestamp (true: after it); the spec leaves this to the list library -/
  insert_tie : bgentry_t → bgentry_t → Bool

/-- How a process stops running the shell's code: `exit` (or `return` from
`main`), a successful `execvp`, or undefined behaviour (a NULL dereference, an
index outside an array). -/
inductive Halt
  | exit (code : Int)
  | image_replaced
  | undefined
deriving DecidableEq

/-- How one run of the loop body ends: with the state for the next round, or
the process stops. -/
inductive Ending
  | next (st : ShellState)
  | halt (h : Halt)
deriving DecidableEq

/-! ## Signal bridge and reaper -/

/-- The function `sigchld_handler` of icssh.c (lines 13-16): `sigchld_received = 1`. -/
def sigchld_handler (_sigchld_received : Int) : Int := 1

/-- Delivery of SIGCHLD at a point of the program, if it happens there. -/
def deliver (happens : Bool) (sigchld_received : Int) : Int :=
  if happens then sigchld_handler sigchld_received else sigchld_received

/-- The inner `while (current != NULL)` scan of `reap_bg_jobs` (lines 79-103):
the first node whose entry has the pid is unlinked; the result is that entry
and the remaining chain, or `none` when the scan reaches the end. -/
def reap_scan (pid : Int) : List bgentry_t → Option (bgentry_t × List bgentry_t)
  | [] => none
  | entry :: next =>
    if entry.pid = pid then some (entry, next)
    else match reap_scan pid next with
      | none => none
      | some (found, rest) => some (found, entry :: rest)

/-- The function `reap_bg_jobs` of icssh.c (lines 72-105), given the return
values of its successive `waitpid` calls. -/
def reap_bg_jobs (bg_list : list_t) : List Int → List Event × list_t
  | [] => ([.waitpid (-1) WNOHANG], bg_list)
  | pid :: more =>
    if pid > 0 then
      match reap_scan pid bg_list.head with
      | some (entry, head) =>
        let r := reap_bg_jobs { head := head, length := bg_list.length - 1 } more
        (.waitpid (-1) WNOHANG :: .printf_BG_TERM pid entry.job.line ::
          (delete_bgentry (some entry) ++ .free_node :: r.1), r.2)
      | none =>
        let r := reap_bg_jobs bg_list more
        (.waitpid (-1) WNOHANG :: r.1, r.2)
    else ([.waitpid (-1) WNOHANG], bg_list)

/-- Lines 165-168 of `main`: test the flag, reap, then store 0 in the flag. -/
def check_sigchld (st : ShellState) (env : Env) : List Event × ShellState :=
  let seen := deliver env.sigchld_before_check st.sigchld_received
  if seen ≠ 0 then
    let r := reap_bg_jobs st.bg_list env.reaped
    let reaping : ShellState :=
      { st with bg_list := r.2, sigchld_received := deliver env.sigchld_during_reap seen }
    (r.1 ++ [.store_sigchld_received 0], { reaping with sigchld_received := 0 })
  else ([], { st with sigchld_received := seen })

/-! ## libc helpers used by `main` -/

/-- The libc `isspace` in the C locale. -/
def isspace (b : Nat) : Bool := b = 32 || (9 ≤ b && b ≤ 13)

/-- The digit loop of `strtol` in base 10: the value of the leading digits. -/
def strtol_digits : List Nat → Int → Int
  | [], acc => acc
  | b :: bs, acc =>
    if 48 ≤ b ∧ b ≤ 57 then strtol_digits bs (acc * 10 + ((b : Int) - 48)) else acc

/-- The largest `long` (64 bits). -/
def LONG_MAX : Int := 9223372036854775807

/-- The smallest `long` (64 bits). -/
def LONG_MIN : Int := -9223372036854775808

/-- The libc `strtol(s, NULL, 10)`: leading white space, an optional sign,
decimal digits; a value outside `long` is replaced by `LONG_MAX` or
`LONG_MIN`. -/
def strtol (s : CStr) : Int :=
  let v : Int :=
    match s.bytes.dropWhile isspace with
    | 45 :: r => - strtol_digits r 0
    | 43 :: r => strtol_digits r 0
    | r => strtol_digits r 0
  if v > LONG_MAX then LONG_MAX else if v < LONG_MIN then LONG_MIN else v

/-- Conversion of a `long` to the 32-bit `int`: the value modulo `2 ^ 32`,
read as a signed number. -/
def to_int (v : Int) : Int := (v + 2147483648) % 4294967296 - 2147483648

/-- The libc `atoi`, which is `(int) strtol(s, NULL, 10)`: its result is a
32-bit `int`. -/
def atoi (s : CStr) : Int := to_int (strtol s)

/-- The macro `WTERMSIG` of sys/wait.h: `status & 0x7f`. -/
def WTERMSIG (status : Nat) : Nat := status &&& 0x7f

/-- The macro `WEXITSTATUS` of sys/wait.h: `(status & 0xff00) >> 8`. -/
def WEXITSTATUS (status : Nat) : Nat := (status &&& 0xff00) >>> 8

/-- The macro `WIFEXITED` of sys/wait.h: `WTERMSIG(status) == 0`. -/
def WIFEXITED (status : Nat) : Bool := WTERMSIG status = 0

/-- Conversion to `signed char`. -/
def to_signed_char (n : Nat) : Int :=
  if n % 256 < 128 then ((n % 256 : Nat) : Int) else ((n % 256 : Nat) : Int) - 256

/-- The macro `WIFSIGNALED` of sys/wait.h:
`((signed char) ((status & 0x7f) + 1) >> 1) > 0`. -/
def WIFSIGNALED (status : Nat) : Bool :=
  (to_signed_char ((status &&& 0x7f) + 1)) >>> (1 : Nat) > 0

/-- The string literal `exit` (ASCII). -/
def str_exit : CStr := ⟨[101, 120, 105, 116], by decide⟩

/-- The string literal `cd`. -/
def str_cd : CStr := ⟨[99, 100], by decide⟩

/-- The string literal `estatus`. -/
def str_estatus : CStr := ⟨[101, 115, 116, 97, 116, 117, 115], by decide⟩

/-- The string literal `bglist`. -/
def str_bglist : CStr := ⟨[98, 103, 108, 105, 115, 116], by decide⟩

/-- The string literal `fg`. -/
def str_fg : CStr := ⟨[102, 103], by decide⟩

/-! ## Start of `main` -/

/-- Lines 107-160 of `main` as far as they set the variables of the loop: the
optional command-line argument gives `max_bgprocs`; `none` is
`exit(EXIT_FAILURE)`. The list library's `CreateList` (not among the sources)
returns the empty list. -/
def main_init (arg : Option CStr) : Option ShellState :=
  let fresh (max_bgprocs : Int) : ShellState :=
    { bg_list := { head := [], length := 0 }, last_exit_status := 0, sigchld_received := 0,
      max_bgprocs := max_bgprocs }
  match arg with
  | none => some (fresh (-1))
  | some a =>
    let check := atoi a
    if check ≠ 0 then some (fresh check) else none

/-! ## Built-ins -/

/-- The built-in `exit` (lines 200-238). -/
def builtin_exit (st : ShellState) (job : job_info) : List Event × Ending :=
  ((st.bg_list.head.flatMap fun entry =>
      [.kill entry.pid SIGKILL, .printf_BG_TERM entry.pid entry.job.line]) ++
    (st.bg_list.head.map fun entry => .waitpid entry.pid 0) ++
    (st.bg_list.head.flatMap fun entry => delete_bgentry (some entry) ++ [.free_node]) ++
    [.free_list, .free_line, .free_job job, .validate_input_NULL], .halt (.exit 0))

/-- The built-in `cd` (lines 241-272). -/
def builtin_cd (st : ShellState) (env : Env) (job : job_info) (proc : proc_info) :
    List Event × Ending :=
  let target_dir : List Event × Option CStr :=
    match (if proc.argc < 2 then none else proc.argv.get? 1) with
    | none => ([.getenv_HOME], env.getenv_HOME)
    | some a => ([], some a)
  match target_dir.2 with
  | none => (target_dir.1 ++ [.fprintf_stderr .DIR_ERR, .free_line, .free_job job], .next st)
  | some dir =>
    if env.chdir_ret dir = 0 then
      (target_dir.1 ++ [.chdir dir, .getcwd] ++
        (match env.getcwd_ret with
          | some cwd => [.printf_line cwd]
          | none => []) ++ [.free_line, .free_job job],
        .next st)
    else
      (target_dir.1 ++ [.chdir dir, .fprintf_stderr .DIR_ERR, .free_line, .free_job job],
        .next st)

/-- The loop of lines 309-320 together with the unlinking of lines 365-371: the
node whose `next` is NULL becomes the target; the result is its entry and the
chain without it. -/
def fg_find_last : List bgentry_t → Option (bgentry_t × List bgentry_t)
  | [] => none
  | [entry] => some (entry, [])
  | entry :: next :: more =>
    match fg_find_last (next :: more) with
    | none => none
    | some (target, rest) => some (target, entry :: rest)

/-- The loop of lines 326-335 together with the unlinking of lines 365-371: the
first node whose entry has `target_pid` becomes the target. -/
def fg_find_pid (target_pid : Int) : List bgentry_t → Option (bgentry_t × List bgentry_t)
  | [] => none
  | entry :: next =>
    if entry.pid = target_pid then some (entry, next)
    else match fg_find_pid target_pid next with
      | none => none
      | some (target, rest) => some (target, entry :: rest)

/-- Lines 346-379 of the built-in `fg`, once a target is chosen. -/
def fg_wait (st : ShellState) (env : Env) (job : job_info) (target_pid : Int)
    (target_entry : bgentry_t) (rest : List bgentry_t) : List Event × Ending :=
  let w := env.waitpid_ret 0
  let fg_status := w.2
  let waited : List Event × Int :=
    if w.1 < 0 then ([.perror .waitpid], st.last_exit_status)
    else if WIFEXITED fg_status then ([], (WEXITSTATUS fg_status : Int))
    else if WIFSIGNALED fg_status then ([], 128 + (WTERMSIG fg_status : Int))
    else ([], (fg_status : Int))
  (.printf_line target_entry.job.line :: .waitpid target_pid 0 :: waited.1 ++
    (delete_bgentry (some target_entry) ++ [.free_node, .free_line, .free_job job]),
    .next { st with
      last_exit_status := waited.2
      bg_list := { head := rest, length := st.bg_list.length - 1 } })

/-- The built-in `fg` (lines 292-380). -/
def builtin_fg (st : ShellState) (env : Env) (job : job_info) (proc : proc_info) :
    List Event × Ending :=
  if st.bg_list.length = 0 then
    ([.fprintf_stderr .PID_ERR, .free_line, .free_job job], .next st)
  else if proc.argc < 2 then
    match fg_find_last st.bg_list.head with
    | none => ([], .halt .undefined)
    | some (target_entry, rest) => fg_wait st env job target_entry.pid target_entry rest
  else
    match proc.argv.get? 1 with
    | none => ([], .halt .undefined)
    | some a =>
      let target_pid := atoi a
      match fg_find_pid target_pid st.bg_list.head with
      | none => ([.fprintf_stderr .PID_ERR, .free_line, .free_job job], .next st)
      | some (target_entry, rest) => fg_wait st env job target_pid target_entry rest

/-! ## Process launcher -/

/-- Number of slots of `pid_t pids[10]` (line 113). -/
def PIDS_LEN : Nat := 10

/-- The assignment `pids[i] = v`; `none` when `i` is outside the array. -/
def pids_store (pids : Nat → Int) (i : Nat) (v : Int) : Option (Nat → Int) :=
  if i < PIDS_LEN then some (fun j => if j = i then v else pids j) else none

/-- The read `pids[i]`; `none` when `i` is outside the array. -/
def pids_load (pids : Nat → Int) (i : Nat) : Option Int :=
  if i < PIDS_LEN then some (pids i) else none

/-- What the launcher hands to the rest of the loop body. -/
inductive Launch
  | parent (pid : Int) (pids : Nat → Int)
  | stop (h : Halt)

/-- The call `execvp(proc->cmd, proc->argv)` in a child and the code after it
(lines 437-447 and 491-498). -/
def exec_child (env : Env) (job : job_info) (proc : proc_info) : List Event × Halt :=
  if env.execvp_fails then
    ([.execvp proc.cmd proc.argv, .printf_EXEC_ERR proc.cmd, .free_job job, .free_line,
      .validate_input_NULL], .exit EXIT_FAILURE)
  else ([.execvp proc.cmd proc.argv], .image_replaced)

/-- One redirection block of the single-stage child (lines 396-407, 410-421,
424-435): `none` when there is nothing to redirect or the redirection is done,
otherwise the child exits. The Boolean is true when the child goes on. -/
def redirect (env : Env) (job : job_info) (file : Option CStr) (rdonly : Bool) (target : Fd) :
    List Event × Bool :=
  match file with
  | none => ([], true)
  | some path =>
    let fd := env.open_ret path
    let op : Event := if rdonly then .open_rdonly path else .open_trunc path
    if fd < 0 then
      ([op, .fprintf_stderr .RD_ERR, .free_job job, .free_line, .validate_input_NULL], false)
    else ([op, .dup2 (.opened fd) target, .close (.opened fd)], true)

/-- The child of the single-stage path (lines 389-448). -/
def single_child (env : Env) (job : job_info) (proc : proc_info) : List Event × Halt :=
  let r_in := redirect env job job.in_file true .STDIN_FILENO
  if !r_in.2 then (r_in.1, .exit EXIT_FAILURE)
  else
    let r_out := redirect env job job.out_file false .STDOUT_FILENO
    if !r_out.2 then (r_in.1 ++ r_out.1, .exit EXIT_FAILURE)
    else
      let r_err := redirect env job proc.err_file false .STDERR_FILENO
      if !r_err.2 then (r_in.1 ++ r_out.1 ++ r_err.1, .exit EXIT_FAILURE)
      else
        let ex := exec_child env job proc
        (r_in.1 ++ r_out.1 ++ r_err.1 ++ ex.1, ex.2)

/-- The loop `for (int i = 0; i < num_pipes; i++) pipe(pipefds[i])` (lines
455-460), from index `i` with `k` rounds to go; the Boolean is false when a
`pipe` call failed and the shell exits. -/
def create_pipes (env : Env) : Nat → Nat → List Event × Bool
  | 0, _ => ([], true)
  | k + 1, i =>
    if env.pipe_ret i < 0 then ([.pipe i, .perror .pipe_error], false)
    else
      let r := create_pipes env k (i + 1)
      (.pipe i :: r.1, r.2)

/-- The loops that close both ends of every pipe (lines 486-489 and 508-511),
from index `j` with `k` rounds to go. -/
def close_pipes : Nat → Nat → List Event
  | 0, _ => []
  | k + 1, j => .close (.pipefds j 0) :: .close (.pipefds j 1) :: close_pipes k (j + 1)

/-- The statement `if (proc->next_proc != NULL) proc = proc->next_proc;`. -/
def next_proc (proc : List proc_info) : List proc_info :=
  match proc with
  | _ :: q :: rest => q :: rest
  | _ => proc

/-- The child of stage `i` of a pipeline (lines 473-499). -/
def pipeline_child (env : Env) (job : job_info) (num_pipes i : Nat) (proc : proc_info) :
    List Event × Halt :=
  let ex := exec_child env job proc
  ((if i > 0 then [.dup2 (.pipefds (i - 1) 0) .STDIN_FILENO] else []) ++
    (if i < num_pipes then [.dup2 (.pipefds i 1) .STDOUT_FILENO] else []) ++
    close_pipes num_pipes 0 ++ ex.1, ex.2)

/-- How the fork loop ends. -/
inductive ForkLoop
  | done (pids : Nat → Int)
  | stop (h : Halt)

/-- The loop `for (int i = 0; i < job->nproc; i++)` of lines 464-505, from index
`i` with `k` rounds to go; `proc` is the stage pointer, `pids` the array. -/
def fork_children (env : Env) (job : job_info) (num_pipes : Nat) :
    Nat → Nat → List proc_info → (Nat → Int) → List Event × ForkLoop
  | 0, _, _, pids => ([], .done pids)
  | k + 1, i, proc, pids =>
    let r := env.fork_ret i
    match pids_store pids i r with
    | none => ([.fork r, .pids_store i r], .stop .undefined)
    | some pids1 =>
      if r < 0 then
        ([.fork r, .pids_store i r, .perror .fork_error], .stop (.exit EXIT_FAILURE))
      else
        match proc with
        | [] => ([.fork r, .pids_store i r], .stop .undefined)
        | p :: _ =>
          if r = 0 then
            let c := pipeline_child env job num_pipes i p
            (.fork r :: .pids_store i r :: c.1, .stop c.2)
          else
            let rest := fork_children env job num_pipes k (i + 1) (next_proc proc) pids1
            (.fork r :: .pids_store i r :: rest.1, rest.2)

/-- The launcher (lines 382-516): the single-stage path when `nproc == 1`, the
pipeline path otherwise. -/
def launch (env : Env) (job : job_info) : List Event × Launch :=
  if job.nproc = 1 then
    let r := env.fork_ret 0
    if r < 0 then ([.fork r, .perror .fork_error], .stop (.exit EXIT_FAILURE))
    else if r = 0 then
      match job.procs with
      | [] => ([.fork r], .stop .undefined)
      | proc :: _ =>
        let c := single_child env job proc
        (.fork r :: c.1, .stop c.2)
    else ([.fork r], .parent r env.pids_before)
  else
    let num_pipes := job.nproc - 1
    if num_pipes < 0 then ([], .stop .undefined)
    else
      let pp := create_pipes env num_pipes.toNat 0
      if !pp.2 then (pp.1, .stop (.exit EXIT_FAILURE))
      else
        let fk := fork_children env job num_pipes.toNat job.nproc.toNat 0 job.procs
          env.pids_before
        match fk.2 with
        | .stop e => (pp.1 ++ fk.1, .stop e)
        | .done pids =>
          let last := (job.nproc - 1).toNat
          match pids_load pids last with
          | none => (pp.1 ++ fk.1 ++ close_pipes num_pipes.toNat 0 ++ [.pids_load last],
              .stop .undefined)
          | some pid => (pp.1 ++ fk.1 ++ close_pipes num_pipes.toNat 0 ++ [.pids_load last],
              .parent pid pids)

/-! ## After the launch: background or foreground -/

/-- The loop of lines 529-532 (kill and reap every child of a piped job), from
index `i` with `k` rounds to go; the Boolean is false when an index fell
outside `pids`. -/
def kill_children (pids : Nat → Int) : Nat → Nat → List Event × Bool
  | 0, _ => ([], true)
  | k + 1, i =>
    match pids_load pids i with
    | none => ([.pids_load i], false)
    | some p =>
      let r := kill_children pids k (i + 1)
      (.pids_load i :: .kill p SIGKILL :: .waitpid p 0 :: r.1, r.2)

/-- How the foreground wait loop ends. -/
inductive WaitLoop
  | done (last_exit_status : Int)
  | stop (h : Halt)
deriving DecidableEq

/-- The loop of lines 586-606 (wait for every stage, keep the status of the
last one), from index `i` with `k` rounds to go. -/
def wait_children (env : Env) (nproc : Int) (pids : Nat → Int) :
    Nat → Nat → Int → List Event × WaitLoop
  | 0, _, last_exit_status => ([], .done last_exit_status)
  | k + 1, i, last_exit_status =>
    match pids_load pids i with
    | none => ([.pids_load i], .stop .undefined)
    | some p =>
      let w := env.waitpid_ret i
      let exit_status := w.2
      if w.1 < 0 then
        ([.pids_load i, .waitpid p 0, .printf_msg .WAIT_ERR], .stop (.exit EXIT_FAILURE))
      else
        let stored : Int :=
          if (i : Int) = nproc - 1 then
            if WIFEXITED exit_status then (WEXITSTATUS exit_status : Int)
            else if WIFSIGNALED exit_status then 128 + (WTERMSIG exit_status : Int)
            else (exit_status : Int)
          else last_exit_status
        let r := wait_children env nproc pids k (i + 1) stored
        (.pids_load i :: .waitpid p 0 :: r.1, r.2)

/-- Lines 517-610: what the parent does with a launched job. -/
def parent_after_launch (st : ShellState) (env : Env) (job : job_info) (pid : Int)
    (pids : Nat → Int) : List Event × Ending :=
  if job.bg then
    if st.max_bgprocs > 0 ∧ st.bg_list.length ≥ st.max_bgprocs then
      if job.nproc = 1 then
        ([.kill pid SIGKILL, .waitpid pid 0, .fprintf_stderr .BG_ERR, .free_job job, .free_line],
          .next st)
      else
        let k := kill_children pids job.nproc.toNat 0
        if k.2 then (k.1 ++ [.fprintf_stderr .BG_ERR, .free_job job, .free_line], .next st)
        else (k.1, .halt .undefined)
    else
      let bg_entry : bgentry_t := { job := job, pid := pid, seconds := env.time_now }
      ([.time, .free_line],
        .next { st with bg_list := InsertInOrder env.insert_tie st.bg_list bg_entry })
  else
    if job.nproc = 1 then
      let w := env.waitpid_ret 0
      let exit_status := w.2
      if w.1 < 0 then ([.waitpid pid 0, .printf_msg .WAIT_ERR], .halt (.exit EXIT_FAILURE))
      else
        let stored : Int :=
          if WIFEXITED exit_status then (WEXITSTATUS exit_status : Int)
          else if WIFSIGNALED exit_status then 128 + (WTERMSIG exit_status : Int)
          else (exit_status : Int)
        ([.waitpid pid 0, .free_job job, .free_line],
          .next { st with last_exit_status := stored })
    else
      let r := wait_children env job.nproc pids job.nproc.toNat 0 st.last_exit_status
      match r.2 with
      | .stop h => (r.1, .halt h)
      | .done stored =>
        (r.1 ++ [.free_job job, .free_line], .next { st with last_exit_status := stored })

/-! ## The loop body -/

/-- Lines 183-610: what the loop body does with a parsed job. -/
def run_job (st : ShellState) (env : Env) (job : job_info) : List Event × Ending :=
  if validate_redirections (some job) = 0 then
    ([.fprintf_stderr .RD_ERR, .free_line, .free_job job], .next st)
  else if job.nproc > 1 ∧
      (job.in_file ≠ none ∨ job.out_file ≠ none ∨ first_err_file job ≠ none) then
    ([.fprintf_stderr .PIPE_ERR, .free_line, .free_job job], .next st)
  else
    match job.procs with
    | [] => ([], .halt .undefined)
    | proc :: _ =>
      if strcmp proc.cmd str_exit = 0 then builtin_exit st job
      else if strcmp proc.cmd str_cd = 0 then builtin_cd st env job proc
      else if strcmp proc.cmd str_estatus = 0 then
        ([.printf_status st.last_exit_status, .free_line, .free_job job], .next st)
      else if strcmp proc.cmd str_bglist = 0 then
        ([.PrintLinkedList st.bg_list.head, .free_line, .free_job job], .next st)
      else if strcmp proc.cmd str_fg = 0 then builtin_fg st env job proc
      else
        let l := launch env job
        match l.2 with
        | .stop h => (l.1, .halt h)
        | .parent pid pids =>
          let r := parent_after_launch st env job pid pids
          (l.1 ++ r.1, r.2)

/-- A SIGCHLD that arrives after the flag was handled sets it for the next
iteration. -/
def later (env : Env) (e : Ending) : Ending :=
  match e with
  | .next st => .next { st with sigchld_received := deliver env.sigchld_later st.sigchld_received }
  | other => other

/-- One round of the `while ((line = readline(...)) != NULL)` loop (lines
163-611); `job` is what `validate_input(line)` returned. -/
def loop_body (st : ShellState) (env : Env) (job : Option job_info) : List Event × Ending :=
  let c := check_sigchld st env
  match job with
  | none => (c.1 ++ [.free_line], later env (.next c.2))
  | some job =>
    let r := run_job c.2 env job
    (c.1 ++ r.1, later env r.2)

/-- The loop of `main` over the lines it reads; when the lines are used up
`readline` returns NULL and `main` returns 0 (lines 612-618). -/
def main_loop (st : ShellState) : List (Env × Option job_info) → List Event × Ending
  | [] => ([.validate_input_NULL, .fclose_rl_outstream], .halt (.exit 0))
  | (env, job) :: more =>
    let r := loop_body st env job
    match r.2 with
    | .next st1 =>
      let m := main_loop st1 more
      (r.1 ++ m.1, m.2)
    | e => (r.1, e)

/-- The shell state at the top of the loop after the given lines, or the last
one reached when the shell stopped earlier. -/
def state_after (st : ShellState) : List (Env × Option job_info) → ShellState
  | [] => st
  | (env, job) :: more =>
    match (loop_body st env job).2 with
    | .next st1 => state_after st1 more
    | _ => st

/-! ## Reference functions for the statements -/

/-- The translation in the words of the spec (4.6): "normal exit → exit code;
signaled → 128 + signal number; otherwise → raw status". -/
def exit_status_translation (status : Nat) : Int :=
  if WIFEXITED status then (WEXITSTATUS status : Int)
  else if WIFSIGNALED status then 128 + (WTERMSIG status : Int)
  else (status : Int)

/-- The index at which an action touches the array `pids`, if it does. -/
def pids_index (e : Event) : Option Nat :=
  match e with
  | .pids_store i _ => some i
  | .pids_load i => some i
  | _ => none

/-- The indices at which a trace touches the array `pids`. -/
def pids_indices (trace : List Event) : List Nat := trace.filterMap pids_index

/-- The test "the entry belongs to another process than `p`". -/
def other_pid (p : Int) (e : bgentry_t) : Bool := decide (e.pid ≠ p)

/-- The table that results from inserting the given entries one after the other
into the empty table, as the background branch does (line 548). -/
def table_of (tie : bgentry_t → bgentry_t → Bool) (entries : List bgentry_t) : list_t :=
  entries.foldl (InsertInOrder tie) { head := [], length := 0 }

/-! ## Concrete inputs for the examples -/

/-- An environment in which nothing fails and no signal arrives: `fork` number
`i` returns `100 + i`, every child exits with code 0. -/
def env_idle : Env :=
  { sigchld_before_check := false, sigchld_during_reap := false, sigchld_later := false,
    reaped := [], pipe_ret := fun _ => 0, fork_ret := fun i => 100 + (i : Int),
    waitpid_ret := fun i => (100 + (i : Int), 0), open_ret := fun _ => 3,
    execvp_fails := false, time_now := 1000, getenv_HOME := none, chdir_ret := fun _ => 0,
    getcwd_ret := none, pids_before := fun _ => 0, insert_tie := fun _ _ => true }

/-- The stage `fg` without argument. -/
def proc_fg : proc_info := { cmd := str_fg, argc := 1, argv := [str_fg], err_file := none }

/-- The command line `fg`. -/
def job_fg : job_info :=
  { line := str_fg, nproc := 1, bg := false, procs := [proc_fg], in_file := none,
    out_file := none }

/-- The stage `a` (one letter, no argument). -/
def proc_a : proc_info :=
  { cmd := ⟨[97], by decide⟩, argc := 1, argv := [⟨[97], by decide⟩], err_file := none }

/-- The background command line `a &`. -/
def job_a : job_info :=
  { line := ⟨[97, 32, 38], by decide⟩, nproc := 1, bg := true, procs := [proc_a],
    in_file := none, out_file := none }

/-- A background entry for `a &` with the given pid and launch time. -/
def entry_a (pid seconds : Int) : bgentry_t := { job := job_a, pid := pid, seconds := seconds }

/-- A shell state with the given table, capacity unlimited. -/
def state_with (tbl : list_t) : ShellState :=
  { bg_list := tbl, last_exit_status := 0, sigchld_received := 0, max_bgprocs := -1 }

/-- A shell state whose termination flag is set (an earlier foreground child
ended) and whose table holds one running background job, pid 7. -/
def state_flagged : ShellState :=
  { bg_list := { head := [entry_a 7 100], length := 1 }, last_exit_status := 0,
    sigchld_received := 1, max_bgprocs := -1 }

/-- An environment in which the reaper finds no terminated child, and a child
terminates, with SIGCHLD delivered, right after that `waitpid` returned 0. -/
def env_late_sigchld : Env := { env_idle with sigchld_during_reap := true }

/-- What one step of the shell may do to the table length: the capacity stays,
the length does not grow, unless the capacity test of line 521 was negative
and one entry was added. -/
def table_step (st st1 : ShellState) : Prop :=
  st1.max_bgprocs = st.max_bgprocs ∧
    (st1.bg_list.length ≤ st.bg_list.length ∨
      (st1.bg_list.length = st.bg_list.length + 1 ∧
        ¬ (st.max_bgprocs > 0 ∧ st.bg_list.length ≥ st.max_bgprocs)))

/-- The background pipeline `a | a &` (two stages). -/
def job_pipe_bg : job_info :=
  { line := ⟨[97, 124, 97, 38], by decide⟩, nproc := 2, bg := true, procs := [proc_a, proc_a],
    in_file := none, out_file := none }

/-- A shell state with capacity 1 whose table holds one entry. -/
def state_full : ShellState :=
  { bg_list := { head := [entry_a 7 100], length := 1 }, last_exit_status := 0,
    sigchld_received := 0, max_bgprocs := 1 }

/-- The contents of `pids` after the two forks of `job_pipe_bg` under `env_idle`. -/
def pids_two : Nat → Int :=
  fun j => if j = 0 + 1 then env_idle.fork_ret (0 + 1)
    else (fun j => if j = 0 then env_idle.fork_ret 0 else env_idle.pids_before j) j

/-- The foreground command line `a`. -/
def job_a_fg : job_info :=
  { line := ⟨[97], by decide⟩, nproc := 1, bg := false, procs := [proc_a], in_file := none,
    out_file := none }

/-- As `env_idle`, but every child exits with code 7 (wait status `7 << 8`). -/
def env_exit7 : Env := { env_idle with waitpid_ret := fun i => (100 + (i : Int), 1792) }

/-- The command line `a | a | ... | a` with eleven stages. -/
def job_eleven : job_info :=
  { line := ⟨[97], by decide⟩, nproc := 11, bg := false, procs := List.replicate 11 proc_a,
    in_file := none, out_file := none }

/-- The command line `a | a | a` with three stages. -/
def job_three : job_info :=
  { line := ⟨[97], by decide⟩, nproc := 3, bg := false, procs := List.replicate 3 proc_a,
    in_file := none, out_file := none }

/-- The command line `a | a < a`: two stages and an input redirection. -/
def job_pipe_in : job_info :=
  { line := ⟨[97, 124, 97, 60, 97], by decide⟩, nproc := 2, bg := false,
    procs := [proc_a, proc_a], in_file := some ⟨[97], by decide⟩, out_file := none }

/-- The command line `a > a < a`: input and output redirected to the same file. -/
def job_same_in_out : job_info :=
  { line := ⟨[97, 62, 97, 60, 97], by decide⟩, nproc := 1, bg := false, procs := [proc_a],
    in_file := some ⟨[97], by decide⟩, out_file := some ⟨[97], by decide⟩ }

/-- A shell state whose table holds two entries, pids 7 and 8. -/
def state_two : ShellState :=
  state_with { head := [entry_a 7 100, entry_a 8 101], length := 2 }

/-- The stage `fg 4294967305`; the argument exceeds the range of `int`. -/
def proc_fg_big : proc_info :=
  { cmd := str_fg, argc := 2,
    argv := [str_fg, ⟨[52, 50, 57, 52, 57, 54, 55, 51, 48, 53], by decide⟩], err_file := none }

/-- The command line `fg 4294967305`. -/
def job_fg_big : job_info :=
  { line := str_fg, nproc := 1, bg := false, procs := [proc_fg_big], in_file := none,
    out_file := none }

/-- The stage `fg 4294967303`; as an `int` the argument is 7. -/
def proc_fg_seven : proc_info :=
  { cmd := str_fg, argc := 2,
    argv := [str_fg, ⟨[52, 50, 57, 52, 57, 54, 55, 51, 48, 51], by decide⟩], err_file := none }

/-- The command line `fg 4294967303`. -/
def job_fg_seven : job_info :=
  { line := str_fg, nproc := 1, bg := false, procs := [proc_fg_seven], in_file := none,
    out_file := none }

/-- The list library puts a new entry after entries with the same timestamp. -/
def tie_after : bgentry_t → bgentry_t → Bool := fun _ _ => true

/-- The list library puts a new entry before entries with the same timestamp. -/
def tie_before : bgentry_t → bgentry_t → Bool := fun _ _ => false

end Icssh

namespace Icssh

/-! ## Facts about `strcmp` -/

theorem strcmp_bytes_eq_zero (a b : List Nat) (ha : ∀ x ∈ a, x ≠ 0) (hb : ∀ x ∈ b, x ≠ 0) :
    strcmp_bytes a b = 0 ↔ a = b := by
  induction a generalizing b with
  | nil =>
    cases b with
    | nil => simp [strcmp_bytes]
    | cons y ys =>
      have hy : y ≠ 0 := hb y (by simp)
      simp [strcmp_bytes]; omega
  | cons x xs ih =>
    cases b with
    | nil =>
      have hx : x ≠ 0 := ha x (by simp)
      simp [strcmp_bytes]; omega
    | cons y ys =>
      have hxs : ∀ z ∈ xs, z ≠ 0 := fun z hz => ha z (by simp [hz])
      have hys : ∀ z ∈ ys, z ≠ 0 := fun z hz => hb z (by simp [hz])
      by_cases hxy : x = y
      · subst hxy
        simp [strcmp_bytes, ih ys hxs hys]
      · simp [strcmp_bytes, hxy]; omega

theorem strcmp_eq_zero (a b : CStr) : strcmp a b = 0 ↔ a.bytes = b.bytes :=
  strcmp_bytes_eq_zero a.bytes b.bytes a.nz b.nz

theorem same_file_iff (a b : Option CStr) : same_file a b = true ↔ conflict a b := by
  cases a with
  | none => simp [same_file, conflict]
  | some x =>
    cases b with
    | none => simp [same_file, conflict]
    | some y => simp [same_file, conflict, strcmp_eq_zero]

/-- C1: for a non-null job, `validate_redirections` returns 0 exactly when two
of the input path, the output path and the first stage's error path are both
present and textually equal, and it returns 1 exactly when no such pair
exists. -/
theorem validate_redirections_spec (job : job_info) :
    (validate_redirections (some job) = 0 ↔
      (conflict job.in_file job.out_file ∨ conflict job.in_file (first_err_file job) ∨
        conflict job.out_file (first_err_file job))) ∧
    (validate_redirections (some job) = 1 ↔
      ¬ (conflict job.in_file job.out_file ∨ conflict job.in_file (first_err_file job) ∨
        conflict job.out_file (first_err_file job))) := by
  simp only [← same_file_iff]
  simp only [validate_redirections]
  generalize same_file job.in_file job.out_file = p
  generalize same_file job.in_file (first_err_file job) = q
  generalize same_file job.out_file (first_err_file job) = r
  cases p <;> cases q <;> cases r <;> simp

/-! ## Wait-status macros -/

theorem WTERMSIG_eq (s : Nat) : WTERMSIG s = s % 128 := by
  unfold WTERMSIG
  exact Nat.and_pow_two_sub_one_eq_mod s 7

theorem WEXITSTATUS_eq (s : Nat) : WEXITSTATUS s = s / 256 % 256 := by
  unfold WEXITSTATUS
  have h : (0xff00 : Nat) = (2 ^ 8 - 1) <<< 8 := by decide
  apply Nat.eq_of_testBit_eq
  intro i
  rw [h, Nat.testBit_shiftRight, Nat.testBit_land, Nat.testBit_shiftLeft,
    Nat.testBit_two_pow_sub_one, show (256 : Nat) = 2 ^ 8 from rfl, Nat.testBit_mod_two_pow,
    ← Nat.shiftRight_eq_div_pow, Nat.testBit_shiftRight]
  by_cases hi : i < 8
  · have : 8 + i - 8 < 8 := by omega
    simp [hi, this]
  · have : ¬ 8 + i - 8 < 8 := by omega
    simp [hi, this]

theorem WIFEXITED_eq (s : Nat) : WIFEXITED s = decide (s % 128 = 0) := by
  simp [WIFEXITED, WTERMSIG_eq]

theorem WIFSIGNALED_eq (s : Nat) :
    WIFSIGNALED s = decide (1 ≤ s % 128 ∧ s % 128 ≤ 126) := by
  unfold WIFSIGNALED to_signed_char
  have h : s &&& 0x7f = s % 128 := Nat.and_pow_two_sub_one_eq_mod s 7
  rw [h, Int.shiftRight_eq_div_pow]
  have h2 : s % 128 < 128 := Nat.mod_lt _ (by decide)
  generalize s % 128 = t at *
  by_cases ht : t = 127
  · subst ht; decide
  · have e1 : (t + 1) % 256 = t + 1 := by omega
    rw [e1]
    have e2 : t + 1 < 128 := by omega
    simp only [e2, if_true]
    by_cases h0 : t = 0
    · subst h0; decide
    · have h3 : 1 ≤ t ∧ t ≤ 126 := by omega
      simp [h3]
      omega

/-- A status `256 * c` (normal exit with code `c`) translates to `c`. -/
theorem translation_exited (c : Nat) (hc : c < 256) :
    exit_status_translation (256 * c) = (c : Int) := by
  have h1 : 256 * c % 128 = 0 := by omega
  have h2 : 256 * c / 256 % 256 = c := by omega
  simp [exit_status_translation, WIFEXITED_eq, WEXITSTATUS_eq, h1]
  omega

/-- A status `sig + 128 * core` (death by signal `sig`, with or without a core
dump) translates to `128 + sig`. -/
theorem translation_signaled (sig core : Nat) (h1 : 1 ≤ sig) (h2 : sig ≤ 126) :
    exit_status_translation (sig + 128 * core) = 128 + (sig : Int) := by
  have e : (sig + 128 * core) % 128 = sig := by omega
  have e0 : sig ≠ 0 := by omega
  simp [exit_status_translation, WIFEXITED_eq, WIFSIGNALED_eq, WTERMSIG_eq, e, e0, h1, h2]

/-! ## Validation in the loop body -/

/-- Two evaluations of `validate_redirections`: `a > a < a` is rejected,
`a | a < a` passes this check. -/
theorem validate_redirections_example :
    validate_redirections (some job_same_in_out) = 0 ∧
      validate_redirections (some job_pipe_in) = 1 := by
  decide

/-- C2: a parsed job with more than one stage that carries a job-level input or
output path or an error path on its first stage is rejected by the loop body:
one error message (RD_ERR or PIPE_ERR), the line and the job are released,
nothing else happens (no pipe, fork or exec) and the shell state, with the
background table, is the one the job found. -/
theorem pipeline_redirection_rejected (st : ShellState) (env : Env) (job : job_info)
    (hn : job.nproc > 1)
    (hr : job.in_file ≠ none ∨ job.out_file ≠ none ∨ first_err_file job ≠ none) :
    ∃ m, (m = Msg.RD_ERR ∨ m = Msg.PIPE_ERR) ∧
      run_job st env job = ([.fprintf_stderr m, .free_line, .free_job job], .next st) ∧
      loop_body st env (some job) =
        ((check_sigchld st env).1 ++ [.fprintf_stderr m, .free_line, .free_job job],
          later env (.next (check_sigchld st env).2)) := by
  by_cases hv : validate_redirections (some job) = 0
  · exact ⟨.RD_ERR, Or.inl rfl, by simp [run_job, hv], by simp [loop_body, run_job, hv]⟩
  · exact ⟨.PIPE_ERR, Or.inr rfl, by simp [run_job, hv, hn, hr],
      by simp [loop_body, run_job, hv, hn, hr]⟩

/-- Instance of C2: the two-stage job `a | a < a` is rejected. -/
theorem pipeline_redirection_rejected_witness :
    ∃ m, (m = Msg.RD_ERR ∨ m = Msg.PIPE_ERR) ∧
      run_job state_full env_idle job_pipe_in =
        ([.fprintf_stderr m, .free_line, .free_job job_pipe_in], .next state_full) ∧
      loop_body state_full env_idle (some job_pipe_in) =
        ((check_sigchld state_full env_idle).1 ++
          [.fprintf_stderr m, .free_line, .free_job job_pipe_in],
          later env_idle (.next (check_sigchld state_full env_idle).2)) :=
  pipeline_redirection_rejected state_full env_idle job_pipe_in (by decide) (by decide)

/-! ## Reaper -/

theorem reap_scan_none (p : Int) (l : List bgentry_t) (h : ∀ e ∈ l, e.pid ≠ p) :
    reap_scan p l = none := by
  induction l with
  | nil => rfl
  | cons x xs ih =>
    have hx : x.pid ≠ p := h x (by simp)
    have hxs : ∀ e ∈ xs, e.pid ≠ p := fun e he => h e (by simp [he])
    simp [reap_scan, hx, ih hxs]

theorem filter_other_self (p : Int) (l : List bgentry_t) (h : ∀ e ∈ l, e.pid ≠ p) :
    l.filter (other_pid p) = l :=
  List.filter_eq_self.mpr (fun e he => decide_eq_true (h e he))

theorem reap_scan_some (p : Int) (l : List bgentry_t) (hd : (l.map (·.pid)).Nodup)
    (h : ∃ e ∈ l, e.pid = p) :
    ∃ found, found.pid = p ∧ found ∈ l ∧
      reap_scan p l = some (found, l.filter (other_pid p)) ∧
      (l.filter (other_pid p)).length + 1 = l.length := by
  induction l with
  | nil => simp at h
  | cons x xs ih =>
    rw [List.map_cons, List.nodup_cons] at hd
    by_cases hx : x.pid = p
    · have hxs : ∀ e ∈ xs, e.pid ≠ p := by
        intro e he hep
        exact hd.1 (List.mem_map.mpr ⟨e, he, by rw [hep, hx]⟩)
      have hf := filter_other_self p xs hxs
      have hneg : ¬ (other_pid p x = true) := by simp [other_pid, hx]
      refine ⟨x, hx, List.mem_cons_self x xs, ?_, ?_⟩
      · rw [List.filter_cons, if_neg hneg, hf]
        simp only [reap_scan, hx, if_true]
      · rw [List.filter_cons, if_neg hneg, hf]
        rfl
    · have h2 : ∃ e ∈ xs, e.pid = p := by
        obtain ⟨e, he, hep⟩ := h
        rcases List.mem_cons.mp he with rfl | he2
        · exact absurd hep hx
        · exact ⟨e, he2, hep⟩
      obtain ⟨found, hfp, hfm, hs, hlen⟩ := ih hd.2 h2
      have hpos : other_pid p x = true := decide_eq_true hx
      refine ⟨found, hfp, List.mem_cons_of_mem x hfm, ?_, ?_⟩
      · rw [List.filter_cons, if_pos hpos]
        simp only [reap_scan, hx, if_false, hs]
      · rw [List.filter_cons, if_pos hpos]
        simp only [List.length_cons]
        omega

/-- C4: on a table with pairwise distinct pids whose length field counts its
nodes, the reaper, given one terminated pid `p`, removes the entry with pid
`p` if there is one (the length drops by exactly one, no entry with pid `p`
is left, all other entries stay in their order) and leaves the table as it
is when no entry has pid `p`. -/
theorem reaper_removes_exactly_one (tbl : list_t) (p : Int) (hp : 0 < p)
    (hd : (tbl.head.map (·.pid)).Nodup) (hl : tbl.length = tbl.head.length) :
    ((∃ e ∈ tbl.head, e.pid = p) →
      (reap_bg_jobs tbl [p]).2.length = tbl.length - 1 ∧
      (reap_bg_jobs tbl [p]).2.length = (reap_bg_jobs tbl [p]).2.head.length ∧
      (∀ e ∈ (reap_bg_jobs tbl [p]).2.head, e.pid ≠ p) ∧
      (reap_bg_jobs tbl [p]).2.head = tbl.head.filter (other_pid p)) ∧
    ((∀ e ∈ tbl.head, e.pid ≠ p) → (reap_bg_jobs tbl [p]).2 = tbl) := by
  constructor
  · intro h
    obtain ⟨found, _, _, hs, hlen⟩ := reap_scan_some p tbl.head hd h
    have e : (reap_bg_jobs tbl [p]).2 =
        { head := tbl.head.filter (other_pid p), length := tbl.length - 1 } := by
      simp only [reap_bg_jobs, hp, hs, if_true, gt_iff_lt]
    rw [e]
    refine ⟨rfl, ?_, ?_, rfl⟩
    · show tbl.length - 1 = ((tbl.head.filter (other_pid p)).length : Int)
      rw [hl]
      omega
    · intro e he
      exact of_decide_eq_true (List.mem_filter.mp he).2
  · intro h
    simp only [reap_bg_jobs, hp, reap_scan_none p tbl.head h, if_true, gt_iff_lt]

/-! ## The built-in `fg` -/

theorem fg_not_other_builtin :
    strcmp str_fg str_exit ≠ 0 ∧ strcmp str_fg str_cd ≠ 0 ∧ strcmp str_fg str_estatus ≠ 0 ∧
      strcmp str_fg str_bglist ≠ 0 ∧ strcmp str_fg str_fg = 0 := by
  decide

/-- A job that passes both validation checks and whose first stage is the
command `fg` is handled by the built-in. -/
theorem run_job_fg (st : ShellState) (env : Env) (job : job_info) (proc : proc_info)
    (more : List proc_info) (hprocs : job.procs = proc :: more) (hcmd : proc.cmd = str_fg)
    (hv : validate_redirections (some job) ≠ 0)
    (hpipe : ¬ (job.nproc > 1 ∧
      (job.in_file ≠ none ∨ job.out_file ≠ none ∨ first_err_file job ≠ none))) :
    run_job st env job = builtin_fg st env job proc := by
  obtain ⟨h1, h2, h3, h4, h5⟩ := fg_not_other_builtin
  unfold run_job
  rw [if_neg hv, if_neg hpipe, hprocs]
  simp only [hcmd, h1, h2, h3, h4, h5, if_true, if_false]

theorem fg_find_pid_none (p : Int) (l : List bgentry_t) (h : ∀ e ∈ l, e.pid ≠ p) :
    fg_find_pid p l = none := by
  induction l with
  | nil => rfl
  | cons x xs ih =>
    have hx : x.pid ≠ p := h x (by simp)
    have hxs : ∀ e ∈ xs, e.pid ≠ p := fun e he => h e (by simp [he])
    simp [fg_find_pid, hx, ih hxs]

/-- C6: `fg` on a table of length 0, and `fg <arg>` when no entry has the pid
`atoi(arg)`, print the no-such-job error, release the line and the job, call no
`waitpid`, and leave the shell state (last exit status, table entries, order
and length) as it was. -/
theorem fg_no_such_job (st : ShellState) (env : Env) (job : job_info) (proc : proc_info)
    (more : List proc_info) (hprocs : job.procs = proc :: more) (hcmd : proc.cmd = str_fg)
    (hv : validate_redirections (some job) ≠ 0)
    (hpipe : ¬ (job.nproc > 1 ∧
      (job.in_file ≠ none ∨ job.out_file ≠ none ∨ first_err_file job ≠ none)))
    (h : st.bg_list.length = 0 ∨
      (2 ≤ proc.argc ∧ ∃ a, proc.argv.get? 1 = some a ∧
        ∀ e ∈ st.bg_list.head, e.pid ≠ atoi a)) :
    run_job st env job = ([.fprintf_stderr .PID_ERR, .free_line, .free_job job], .next st) := by
  rw [run_job_fg st env job proc more hprocs hcmd hv hpipe]
  unfold builtin_fg
  by_cases h0 : st.bg_list.length = 0
  · rw [if_pos h0]
  · rw [if_neg h0]
    rcases h with h | ⟨hargc, a, ha, hno⟩
    · exact absurd h h0
    · have hlt : ¬ proc.argc < 2 := by omega
      rw [if_neg hlt, ha]
      simp only [fg_find_pid_none (atoi a) st.bg_list.head hno]

/-- Instance of C6: `fg` on the empty table, and `fg 4294967305` (pid 9 as
an `int`) on the table with pids 7 and 8. -/
theorem fg_no_such_job_witness :
    run_job (state_with { head := [], length := 0 }) env_idle job_fg =
      ([.fprintf_stderr .PID_ERR, .free_line, .free_job job_fg],
        .next (state_with { head := [], length := 0 })) ∧
    run_job state_two env_idle job_fg_big =
      ([.fprintf_stderr .PID_ERR, .free_line, .free_job job_fg_big], .next state_two) :=
  ⟨fg_no_such_job (state_with { head := [], length := 0 }) env_idle job_fg proc_fg []
      rfl rfl (by decide) (by decide) (Or.inl rfl),
    fg_no_such_job state_two env_idle job_fg_big proc_fg_big [] rfl rfl (by decide) (by decide)
      (Or.inr ⟨by decide, _, rfl, by decide⟩)⟩

/-- The argument of `fg` is read as a 32-bit `int`: `fg 4294967303` names pid
7, so with pids 7 and 8 in the table it waits on pid 7 and removes its entry. -/
theorem fg_argument_is_int :
    atoi ⟨[52, 50, 57, 52, 57, 54, 55, 51, 48, 51], by decide⟩ = 7 ∧
    atoi ⟨[52, 50, 57, 52, 57, 54, 55, 50, 57, 54], by decide⟩ = 0 ∧
    atoi ⟨[52, 50, 57, 52, 57, 54, 55, 50, 57, 55], by decide⟩ = 1 ∧
    atoi ⟨[45, 52, 50], by decide⟩ = -42 ∧
    main_init (some ⟨[52, 50, 57, 52, 57, 54, 55, 50, 57, 54], by decide⟩) = none ∧
    run_job state_two env_idle job_fg_seven =
      ([.printf_line job_a.line, .waitpid 7 0, .free_job job_a, .free_bgentry, .free_node,
        .free_line, .free_job job_fg_seven],
        .next (state_with { head := [entry_a 8 101], length := 1 })) := by
  decide

theorem insert_sorted_last (tie : bgentry_t → bgentry_t → Bool) (e : bgentry_t)
    (l : List bgentry_t) (h : ∀ x ∈ l, x.seconds < e.seconds) :
    insert_sorted compare_bgentry tie e l = l ++ [e] := by
  induction l with
  | nil => rfl
  | cons x xs ih =>
    have hx : x.seconds < e.seconds := h x (by simp)
    have hxs : ∀ y ∈ xs, y.seconds < e.seconds := fun y hy => h y (by simp [hy])
    have hc : compare_bgentry (some e) (some x) = 1 := by
      unfold compare_bgentry
      have h1 : ¬ e.seconds < x.seconds := by omega
      have h2 : e.seconds > x.seconds := by omega
      simp only [h1, h2, if_false, if_true]
    have hc1 : ¬ compare_bgentry (some e) (some x) < 0 := by rw [hc]; decide
    have hc2 : ¬ (compare_bgentry (some e) (some x) = 0 ∧ tie e x = false) := by
      rw [hc]
      intro hh
      exact absurd hh.1 (by decide)
    simp only [insert_sorted, if_neg hc1, if_neg hc2, ih hxs, List.cons_append]

theorem table_of_sorted (tie : bgentry_t → bgentry_t → Bool) (es : List bgentry_t)
    (h : es.Pairwise (fun a b => a.seconds < b.seconds)) :
    table_of tie es = { head := es, length := es.length } := by
  induction es using List.reverseRecOn with
  | nil => rfl
  | append_singleton es e ih =>
    rw [List.pairwise_append] at h
    obtain ⟨h1, _, h3⟩ := h
    have hlt : ∀ x ∈ es, x.seconds < e.seconds := fun x hx => h3 x hx e (by simp)
    unfold table_of at ih ⊢
    rw [List.foldl_append, ih h1]
    simp only [List.foldl_cons, List.foldl_nil, InsertInOrder, insert_sorted_last tie e es hlt,
      List.length_append, List.length_singleton]
    simp

theorem fg_find_last_append (es : List bgentry_t) (e : bgentry_t) :
    fg_find_last (es ++ [e]) = some (e, es) := by
  induction es with
  | nil => rfl
  | cons x xs ih =>
    cases xs with
    | nil => rfl
    | cons y ys =>
      simp only [List.cons_append] at ih ⊢
      simp only [fg_find_last, ih]

/-- C7 (as amended): when the table was built by inserting entries whose
timestamps strictly increase in insertion order, then, wherever the list
library puts entries of equal timestamp, `fg` without argument picks the
entry inserted last: it prints its line, waits on its pid, and the table that
remains is the table of the other entries, in order, its length one less. -/
theorem fg_selects_last_inserted (st : ShellState) (env : Env) (job : job_info)
    (proc : proc_info) (more : List proc_info) (tie : bgentry_t → bgentry_t → Bool)
    (es : List bgentry_t) (e : bgentry_t)
    (hprocs : job.procs = proc :: more) (hcmd : proc.cmd = str_fg)
    (hv : validate_redirections (some job) ≠ 0)
    (hpipe : ¬ (job.nproc > 1 ∧
      (job.in_file ≠ none ∨ job.out_file ≠ none ∨ first_err_file job ≠ none)))
    (hargc : proc.argc < 2)
    (hsorted : (es ++ [e]).Pairwise (fun a b => a.seconds < b.seconds))
    (hst : st.bg_list = table_of tie (es ++ [e])) :
    st.bg_list.head = es ++ [e] ∧
    run_job st env job = fg_wait st env job e.pid e es ∧
    (fg_wait st env job e.pid e es).1.take 2 = [.printf_line e.job.line, .waitpid e.pid 0] ∧
    (∃ status, (fg_wait st env job e.pid e es).2 =
      .next { st with last_exit_status := status, bg_list := table_of tie es }) ∧
    (table_of tie es).head = es ∧ (table_of tie es).length = st.bg_list.length - 1 := by
  have hall := hsorted
  rw [List.pairwise_append] at hsorted
  have htab := table_of_sorted tie (es ++ [e]) hall
  have htab2 := table_of_sorted tie es hsorted.1
  have hlen : st.bg_list.length ≠ 0 := by
    rw [hst, htab]
    simp only [List.length_append, List.length_singleton]
    omega
  refine ⟨by rw [hst, htab], ?_, rfl, ?_, by rw [htab2], ?_⟩
  · rw [run_job_fg st env job proc more hprocs hcmd hv hpipe]
    unfold builtin_fg
    rw [if_neg hlen, if_pos hargc, hst, htab]
    simp only [fg_find_last_append]
  · refine ⟨(match (fg_wait st env job e.pid e es).2 with
      | .next s => s.last_exit_status
      | _ => 0), ?_⟩
    unfold fg_wait
    simp only [htab2, hst, htab, List.length_append, List.length_singleton]
    congr 3
    push_cast
    omega
  · rw [htab2, hst, htab]
    simp only [List.length_append, List.length_singleton]
    push_cast
    omega

/-- Instance of C7 (as amended): pid 7 inserted at second 100, pid 8 at second
101, the library putting equal timestamps first; `fg` waits on pid 8. -/
theorem fg_selects_last_inserted_witness :
    (state_with (table_of tie_before ([entry_a 7 100] ++ [entry_a 8 101]))).bg_list.head =
      [entry_a 7 100] ++ [entry_a 8 101] ∧
    run_job (state_with (table_of tie_before ([entry_a 7 100] ++ [entry_a 8 101]))) env_idle
        job_fg =
      fg_wait (state_with (table_of tie_before ([entry_a 7 100] ++ [entry_a 8 101]))) env_idle
        job_fg (entry_a 8 101).pid (entry_a 8 101) [entry_a 7 100] ∧
    (fg_wait (state_with (table_of tie_before ([entry_a 7 100] ++ [entry_a 8 101]))) env_idle
        job_fg (entry_a 8 101).pid (entry_a 8 101) [entry_a 7 100]).1.take 2 =
      [.printf_line (entry_a 8 101).job.line, .waitpid (entry_a 8 101).pid 0] ∧
    (∃ status,
      (fg_wait (state_with (table_of tie_before ([entry_a 7 100] ++ [entry_a 8 101]))) env_idle
        job_fg (entry_a 8 101).pid (entry_a 8 101) [entry_a 7 100]).2 =
      .next { state_with (table_of tie_before ([entry_a 7 100] ++ [entry_a 8 101])) with
        last_exit_status := status, bg_list := table_of tie_before [entry_a 7 100] }) ∧
    (table_of tie_before [entry_a 7 100]).head = [entry_a 7 100] ∧
    (table_of tie_before [entry_a 7 100]).length =
      (state_with (table_of tie_before ([entry_a 7 100] ++ [entry_a 8 101]))).bg_list.length
        - 1 :=
  fg_selects_last_inserted
    (state_with (table_of tie_before ([entry_a 7 100] ++ [entry_a 8 101])))
    env_idle job_fg proc_fg [] tie_before [entry_a 7 100] (entry_a 8 101) rfl rfl (by decide)
    (by decide) (by decide) (by decide) rfl

/-- C7 (as stated) fails: the entry with pid 1 is inserted at second 100, then
the entry with pid 2 at second 50 (the clock was set back); the ordered
insertion puts the second entry first, whichever way the list library treats
equal timestamps, so `fg` without argument waits on pid 1, the entry inserted
first, and the entry inserted last stays. -/
theorem fg_last_inserted_counterexample :
    table_of tie_after [entry_a 1 100, entry_a 2 50] =
      { head := [entry_a 2 50, entry_a 1 100], length := 2 } ∧
    table_of tie_before [entry_a 1 100, entry_a 2 50] =
      { head := [entry_a 2 50, entry_a 1 100], length := 2 } ∧
    run_job (state_with (table_of tie_after [entry_a 1 100, entry_a 2 50])) env_idle job_fg =
      ([.printf_line job_a.line, .waitpid 1 0, .free_job job_a, .free_bgentry, .free_node,
        .free_line, .free_job job_fg],
        .next (state_with { head := [entry_a 2 50], length := 1 })) ∧
    run_job (state_with (table_of tie_before [entry_a 1 100, entry_a 2 50])) env_idle job_fg =
      ([.printf_line job_a.line, .waitpid 1 0, .free_job job_a, .free_bgentry, .free_node,
        .free_line, .free_job job_fg],
        .next (state_with { head := [entry_a 2 50], length := 1 })) := by
  decide

/-- With equal timestamps the entry `fg` picks depends on where the list
library puts a new entry among its equals, which the spec leaves open: for
pid 7 and then pid 8, both at second 100, `fg` takes pid 8 under one
placement and pid 7 under the other. -/
theorem fg_equal_timestamps_open :
    (table_of tie_after [entry_a 7 100, entry_a 8 100]).head = [entry_a 7 100, entry_a 8 100] ∧
    (table_of tie_before [entry_a 7 100, entry_a 8 100]).head =
      [entry_a 8 100, entry_a 7 100] ∧
    (run_job (state_with (table_of tie_after [entry_a 7 100, entry_a 8 100])) env_idle
      job_fg).1.take 2 = [.printf_line job_a.line, .waitpid 8 0] ∧
    (run_job (state_with (table_of tie_before [entry_a 7 100, entry_a 8 100])) env_idle
      job_fg).1.take 2 = [.printf_line job_a.line, .waitpid 7 0] := by
  decide

/-! ## The termination flag -/

/-- C8 fails on the code: with the flag set, the loop body first runs the
reaper (its `waitpid` call comes first in the trace) and only then stores 0
in the flag; a SIGCHLD delivered after the reaper's last `waitpid` sets the
flag, the store overwrites it, and the next iteration finds the flag clear
while the entry of the child that ended is still in the table. -/
theorem sigchld_flag_overwritten :
    loop_body state_flagged env_late_sigchld none =
      ([.waitpid (-1) WNOHANG, .store_sigchld_received 0, .free_line],
        .next { state_flagged with sigchld_received := 0 }) ∧
    deliver env_late_sigchld.sigchld_during_reap state_flagged.sigchld_received = 1 := by
  decide

/-! ## The loops over `pids` -/

theorem next_proc_ne_nil (proc : List proc_info) (h : proc ≠ []) : next_proc proc ≠ [] := by
  cases proc with
  | nil => exact absurd rfl h
  | cons p ps =>
    cases ps with
    | nil => simp [next_proc]
    | cons q qs => simp [next_proc]

theorem pids_index_close_pipes (k j : Nat) :
    ∀ e ∈ close_pipes k j, pids_index e = none := by
  induction k generalizing j with
  | zero => intro e he; simp [close_pipes] at he
  | succ k ih =>
    intro e he
    simp only [close_pipes, List.mem_cons] at he
    rcases he with rfl | rfl | he
    · rfl
    · rfl
    · exact ih (j + 1) e he

theorem pids_index_exec_child (env : Env) (job : job_info) (proc : proc_info) :
    ∀ e ∈ (exec_child env job proc).1, pids_index e = none := by
  intro e he
  unfold exec_child at he
  split at he
  · simp only [List.mem_cons, List.mem_singleton, List.not_mem_nil, or_false] at he
    rcases he with rfl | rfl | rfl | rfl | rfl <;> rfl
  · simp only [List.mem_singleton] at he
    subst he; rfl

theorem pids_index_pipeline_child (env : Env) (job : job_info) (np i : Nat) (proc : proc_info) :
    ∀ e ∈ (pipeline_child env job np i proc).1, pids_index e = none := by
  intro e he
  simp only [pipeline_child, List.mem_append] at he
  rcases he with ((he | he) | he) | he
  · split at he
    · simp only [List.mem_singleton] at he; subst he; rfl
    · simp at he
  · split at he
    · simp only [List.mem_singleton] at he; subst he; rfl
    · simp at he
  · exact pids_index_close_pipes np 0 e he
  · exact pids_index_exec_child env job proc e he

/-- Every index the fork loop uses lies between its start index and its end. -/
theorem fork_children_indices (env : Env) (job : job_info) (np : Nat) (k : Nat) :
    ∀ (i : Nat) (proc : List proc_info) (pids : Nat → Int) (e : Event) (x : Nat),
      e ∈ (fork_children env job np k i proc pids).1 → pids_index e = some x →
      i ≤ x ∧ x < i + k := by
  induction k with
  | zero => intro i proc pids e x he; simp [fork_children] at he
  | succ k ih =>
    intro i proc pids e x he hx
    unfold fork_children at he
    simp only at he
    have base : ∀ e0 : Event, (e0 = .fork (env.fork_ret i) ∨
        e0 = .pids_store i (env.fork_ret i) ∨ e0 = .perror .fork_error) →
        pids_index e0 = some x → i ≤ x ∧ x < i + (k + 1) := by
      intro e0 h0 h1
      rcases h0 with rfl | rfl | rfl
      · simp [pids_index] at h1
      · simp only [pids_index, Option.some.injEq] at h1; omega
      · simp [pids_index] at h1
    split at he
    · simp only [List.mem_cons, List.mem_singleton, List.not_mem_nil, or_false] at he
      exact base e (by tauto) hx
    · split at he
      · simp only [List.mem_cons, List.mem_singleton, List.not_mem_nil, or_false] at he
        exact base e (by tauto) hx
      · split at he
        · simp only [List.mem_cons, List.mem_singleton, List.not_mem_nil, or_false] at he
          exact base e (by tauto) hx
        · split at he
          · simp only [List.mem_cons] at he
            rcases he with h | h | h
            · exact base e (Or.inl h) hx
            · exact base e (Or.inr (Or.inl h)) hx
            · rw [pids_index_pipeline_child env job np i _ e h] at hx
              cases hx
          · simp only [List.mem_cons] at he
            rcases he with h | h | h
            · exact base e (Or.inl h) hx
            · exact base e (Or.inr (Or.inl h)) hx
            · have := ih (i + 1) _ _ e x h hx
              omega

/-- When the fork loop runs to its end, it stayed inside `pids`, every `fork`
returned a positive pid, and `pids` holds these pids at the indices of the
loop and its old contents elsewhere. -/
theorem fork_children_done (env : Env) (job : job_info) (np : Nat) (k : Nat) :
    ∀ (i : Nat) (proc : List proc_info) (pids pids1 : Nat → Int),
      (fork_children env job np k i proc pids).2 = .done pids1 →
      (k = 0 ∨ i + k ≤ PIDS_LEN) ∧
      (∀ j, i ≤ j → j < i + k → 0 < env.fork_ret j) ∧
      (∀ j, pids1 j = if i ≤ j ∧ j < i + k then env.fork_ret j else pids j) ∧
      (fork_children env job np k i proc pids).1 =
        (List.range' i k).flatMap
          (fun j => [.fork (env.fork_ret j), .pids_store j (env.fork_ret j)]) := by
  induction k with
  | zero =>
    intro i proc pids pids1 h
    simp only [fork_children, ForkLoop.done.injEq] at h
    subst h
    refine ⟨Or.inl rfl, ?_, ?_, ?_⟩
    · intro j h1 h2; omega
    · intro j
      have : ¬ (i ≤ j ∧ j < i + 0) := by omega
      rw [if_neg this]
    · simp [fork_children]
  | succ k ih =>
    intro i proc pids pids1 h
    unfold fork_children at h ⊢
    simp only at h ⊢
    by_cases hi : i < PIDS_LEN
    · simp only [pids_store, hi, if_true] at h ⊢
      by_cases hr : env.fork_ret i < 0
      · simp [hr] at h
      · simp only [hr, if_false] at h ⊢
        cases proc with
        | nil => simp at h
        | cons p ps =>
          simp only at h ⊢
          by_cases hz : env.fork_ret i = 0
          · simp [hz] at h
          · simp only [hz, if_false] at h ⊢
            obtain ⟨h1, h2, h3, h4⟩ := ih (i + 1) _ _ pids1 h
            refine ⟨Or.inr ?_, ?_, ?_, ?_⟩
            · unfold PIDS_LEN at hi h1 ⊢
              omega
            · intro j hj1 hj2
              by_cases hji : j = i
              · subst hji; omega
              · exact h2 j (by omega) (by omega)
            · intro j
              rw [h3 j]
              by_cases hji : j = i
              · subst hji
                have e1 : ¬ (j + 1 ≤ j ∧ j < j + 1 + k) := by omega
                have e2 : j ≤ j ∧ j < j + (k + 1) := by omega
                simp [e1, e2]
              · by_cases hin : i ≤ j ∧ j < i + (k + 1)
                · have e1 : i + 1 ≤ j ∧ j < i + 1 + k := by omega
                  simp [e1, hin]
                · have e1 : ¬ (i + 1 ≤ j ∧ j < i + 1 + k) := by omega
                  simp [e1, hin, hji]
            · rw [h4]
              simp [List.range', List.flatMap_cons]
    · simp [pids_store, hi] at h

/-- With every `fork` succeeding in the parent, a fork loop that would pass
the end of `pids` stores at index 10 and goes no further. -/
theorem fork_children_overflow (env : Env) (job : job_info) (np : Nat)
    (hf : ∀ j, 0 < env.fork_ret j) (k : Nat) :
    ∀ (i : Nat) (proc : List proc_info) (pids : Nat → Int), proc ≠ [] → i ≤ PIDS_LEN →
      PIDS_LEN < i + k →
      (fork_children env job np k i proc pids).2 = .stop .undefined ∧
      .pids_store PIDS_LEN (env.fork_ret PIDS_LEN) ∈ (fork_children env job np k i proc pids).1 := by
  induction k with
  | zero => intro i proc pids _ h1 h2; omega
  | succ k ih =>
    intro i proc pids hproc h1 h2
    unfold fork_children
    simp only
    by_cases hi : i < PIDS_LEN
    · have hr : ¬ env.fork_ret i < 0 := by have := hf i; omega
      have hz : ¬ env.fork_ret i = 0 := by have := hf i; omega
      simp only [pids_store, hi, if_true, hr, if_false]
      cases proc with
      | nil => exact absurd rfl hproc
      | cons p ps =>
        simp only [hz, if_false]
        obtain ⟨h3, h4⟩ := ih (i + 1) (next_proc (p :: ps))
          (fun j => if j = i then env.fork_ret i else pids j)
          (next_proc_ne_nil _ hproc) (by omega) (by omega)
        exact ⟨h3, by simp [h4]⟩
    · have : i = PIDS_LEN := by omega
      subst this
      simp [pids_store]

theorem create_pipes_ok (env : Env) (hp : ∀ j, 0 ≤ env.pipe_ret j) (k : Nat) :
    ∀ i, create_pipes env k i = ((List.range' i k).map .pipe, true) := by
  induction k with
  | zero => intro i; rfl
  | succ k ih =>
    intro i
    have h : ¬ env.pipe_ret i < 0 := by have := hp i; omega
    simp [create_pipes, h, ih (i + 1), List.range']

theorem pids_index_create_pipes (env : Env) (k : Nat) :
    ∀ i, ∀ e ∈ (create_pipes env k i).1, pids_index e = none := by
  induction k with
  | zero => intro i e he; simp [create_pipes] at he
  | succ k ih =>
    intro i e he
    unfold create_pipes at he
    split at he
    · simp only [List.mem_cons, List.mem_singleton, List.not_mem_nil, or_false] at he
      rcases he with rfl | rfl <;> rfl
    · simp only [List.mem_cons] at he
      rcases he with rfl | he
      · rfl
      · exact ih (i + 1) e he

theorem kill_children_ok (pids : Nat → Int) (k : Nat) :
    ∀ i, i + k ≤ PIDS_LEN →
      kill_children pids k i =
        ((List.range' i k).flatMap
          (fun j => [.pids_load j, .kill (pids j) SIGKILL, .waitpid (pids j) 0]), true) := by
  induction k with
  | zero => intro i _; rfl
  | succ k ih =>
    intro i h
    have hi : i < PIDS_LEN := by omega
    simp [kill_children, pids_load, hi, ih (i + 1) (by omega), List.range', List.flatMap_cons]

theorem kill_children_indices (pids : Nat → Int) (k : Nat) :
    ∀ (i : Nat) (e : Event) (x : Nat), e ∈ (kill_children pids k i).1 →
      pids_index e = some x → i ≤ x ∧ x < i + k := by
  induction k with
  | zero => intro i e x he; simp [kill_children] at he
  | succ k ih =>
    intro i e x he hx
    unfold kill_children at he
    split at he
    · simp only [List.mem_singleton] at he
      subst he
      simp only [pids_index, Option.some.injEq] at hx
      omega
    · simp only [List.mem_cons] at he
      rcases he with rfl | rfl | rfl | he
      · simp only [pids_index, Option.some.injEq] at hx; omega
      · simp [pids_index] at hx
      · simp [pids_index] at hx
      · have := ih (i + 1) e x he hx
        omega

theorem wait_children_indices (env : Env) (nproc : Int) (pids : Nat → Int) (k : Nat) :
    ∀ (i : Nat) (last : Int) (e : Event) (x : Nat),
      e ∈ (wait_children env nproc pids k i last).1 →
      pids_index e = some x → i ≤ x ∧ x < i + k := by
  induction k with
  | zero => intro i last e x he; simp [wait_children] at he
  | succ k ih =>
    intro i last e x he hx
    unfold wait_children at he
    split at he
    · simp only [List.mem_singleton] at he
      subst he
      simp only [pids_index, Option.some.injEq] at hx
      omega
    · simp only at he
      split at he
      · simp only [List.mem_cons, List.mem_singleton, List.not_mem_nil, or_false] at he
        rcases he with rfl | rfl | rfl
        · simp only [pids_index, Option.some.injEq] at hx; omega
        · simp [pids_index] at hx
        · simp [pids_index] at hx
      · simp only [List.mem_cons] at he
        rcases he with rfl | rfl | he
        · simp only [pids_index, Option.some.injEq] at hx; omega
        · simp [pids_index] at hx
        · have := ih (i + 1) _ e x he hx
          omega

/-- With every `waitpid` succeeding and the loop inside `pids`, the foreground
wait loop ends with the translation of the status of stage `nproc - 1`. -/
theorem wait_children_done (env : Env) (n : Nat) (pids : Nat → Int)
    (hw : ∀ j, j < n → 0 ≤ (env.waitpid_ret j).1) (hn : n ≤ PIDS_LEN) (k : Nat) :
    ∀ (i : Nat) (last : Int), i + k = n →
      (wait_children env (n : Int) pids k i last).2 =
        .done (if k = 0 then last else exit_status_translation (env.waitpid_ret (n - 1)).2) ∧
      (wait_children env (n : Int) pids k i last).1 =
        (List.range' i k).flatMap (fun j => [.pids_load j, .waitpid (pids j) 0]) := by
  induction k with
  | zero => intro i last _; exact ⟨rfl, rfl⟩
  | succ k ih =>
    intro i last h
    have hi : i < PIDS_LEN := by omega
    have hwi : ¬ (env.waitpid_ret i).1 < 0 := by have := hw i (by omega); omega
    unfold wait_children
    simp only [pids_load, hi, if_true, hwi, if_false]
    obtain ⟨h1, h2⟩ := ih (i + 1)
      (if (i : Int) = (n : Int) - 1 then
        (if WIFEXITED (env.waitpid_ret i).2 = true then ((WEXITSTATUS (env.waitpid_ret i).2 : Nat) : Int)
          else if WIFSIGNALED (env.waitpid_ret i).2 = true then
            128 + ((WTERMSIG (env.waitpid_ret i).2 : Nat) : Int)
          else (((env.waitpid_ret i).2 : Nat) : Int))
        else last) (by omega)
    refine ⟨?_, ?_⟩
    · rw [h1]
      by_cases hk : k = 0
      · subst hk
        have e1 : (i : Int) = (n : Int) - 1 := by omega
        have e2 : n - 1 = i := by omega
        simp [e1, e2, exit_status_translation]
      · simp [hk]
    · rw [h2]
      simp [List.range', List.flatMap_cons]

/-! ## The launcher seen from the parent -/

theorem create_pipes_true (env : Env) (k : Nat) :
    ∀ i, (create_pipes env k i).2 = true →
      (create_pipes env k i).1 = (List.range' i k).map .pipe := by
  induction k with
  | zero => intro i _; rfl
  | succ k ih =>
    intro i h
    unfold create_pipes at h ⊢
    by_cases hp : env.pipe_ret i < 0
    · simp [hp] at h
    · simp only [hp, if_false] at h ⊢
      simp [ih (i + 1) h, List.range']

/-- When the launcher returns in the parent, either the job has one stage and
the pid is the one `fork` returned, or it has between 2 and 10 stages, each
`fork` returned a positive pid, `pids` holds them in stage order, the job
pid is the pid of the last stage, and the trace is: the pipes, the forks, the
closing of every pipe end, and the read of the last pid. -/
theorem launch_parent (env : Env) (job : job_info) (tr : List Event) (pid : Int)
    (pids : Nat → Int) (h : launch env job = (tr, .parent pid pids)) :
    (job.nproc = 1 ∧ pid = env.fork_ret 0 ∧ 0 < pid ∧ tr = [.fork pid]) ∨
    (∃ n : Nat, job.nproc = (n : Int) ∧ 2 ≤ n ∧ n ≤ PIDS_LEN ∧ pid = env.fork_ret (n - 1) ∧
      (∀ j, j < n → pids j = env.fork_ret j ∧ 0 < env.fork_ret j) ∧
      tr = (List.range' 0 (n - 1)).map .pipe ++
        (List.range' 0 n).flatMap
          (fun j => [.fork (env.fork_ret j), .pids_store j (env.fork_ret j)]) ++
        close_pipes (n - 1) 0 ++ [.pids_load (n - 1)]) := by
  unfold launch at h
  by_cases h1 : job.nproc = 1
  · left
    simp only [h1, if_true] at h
    by_cases hr : env.fork_ret 0 < 0
    · simp [hr] at h
    · simp only [hr, if_false] at h
      by_cases hz : env.fork_ret 0 = 0
      · simp only [hz, if_true] at h
        split at h <;> simp at h
      · simp only [hz, if_false, Prod.mk.injEq, Launch.parent.injEq] at h
        obtain ⟨h2, h3, _⟩ := h
        refine ⟨h1, h3.symm, ?_, ?_⟩
        · omega
        · rw [← h2, h3]
  · right
    simp only [h1, if_false] at h
    by_cases hneg : job.nproc - 1 < 0
    · simp [hneg] at h
    · simp only [hneg, if_false] at h
      have hlast : (job.nproc - 1).toNat = job.nproc.toNat - 1 := by omega
      rw [hlast] at h
      by_cases hpp : (create_pipes env (job.nproc.toNat - 1) 0).2 = true
      · simp only [hpp, Bool.not_true, Bool.false_eq_true, if_false] at h
        have hpt := create_pipes_true env (job.nproc.toNat - 1) 0 hpp
        split at h
        · simp at h
        · rename_i pids1 hfk
          obtain ⟨f1, f2, f3, f4⟩ :=
            fork_children_done env job (job.nproc.toNat - 1) job.nproc.toNat 0 job.procs
              env.pids_before pids1 hfk
          have hn2 : 2 ≤ job.nproc.toNat := by omega
          have hnle : job.nproc.toNat ≤ PIDS_LEN := by
            rcases f1 with f1 | f1
            · omega
            · omega
          have hlt : job.nproc.toNat - 1 < PIDS_LEN := by omega
          simp only [pids_load, hlt, if_true, Prod.mk.injEq, Launch.parent.injEq] at h
          obtain ⟨h2, h3, h4⟩ := h
          subst h4
          refine ⟨job.nproc.toNat, by omega, hn2, hnle, ?_, ?_, ?_⟩
          · rw [← h3, f3]
            have : 0 ≤ job.nproc.toNat - 1 ∧ job.nproc.toNat - 1 < 0 + job.nproc.toNat := by
              omega
            rw [if_pos this]
          · intro j hj
            have : 0 ≤ j ∧ j < 0 + job.nproc.toNat := by omega
            exact ⟨by rw [f3, if_pos this], f2 j (by omega) (by omega)⟩
          · rw [← h2, hpt, f4]
      · simp only [Bool.not_eq_true] at hpp
        simp [hpp] at h

/-- Instance of C4: the table with pids 7 and 8, reaped pid 7. -/
theorem reaper_removes_exactly_one_witness :
    ((∃ e ∈ state_two.bg_list.head, e.pid = 7) →
      (reap_bg_jobs state_two.bg_list [7]).2.length = state_two.bg_list.length - 1 ∧
      (reap_bg_jobs state_two.bg_list [7]).2.length =
        (reap_bg_jobs state_two.bg_list [7]).2.head.length ∧
      (∀ e ∈ (reap_bg_jobs state_two.bg_list [7]).2.head, e.pid ≠ 7) ∧
      (reap_bg_jobs state_two.bg_list [7]).2.head = state_two.bg_list.head.filter (other_pid 7)) ∧
    ((∀ e ∈ state_two.bg_list.head, e.pid ≠ 7) →
      (reap_bg_jobs state_two.bg_list [7]).2 = state_two.bg_list) :=
  reaper_removes_exactly_one state_two.bg_list 7 (by decide) (by decide) rfl

/-! ## Table length along the loop -/

theorem table_step_refl (st : ShellState) : table_step st st :=
  ⟨rfl, Or.inl (le_refl _)⟩

theorem reap_bg_jobs_length_le (reaped : List Int) :
    ∀ l : list_t, (reap_bg_jobs l reaped).2.length ≤ l.length := by
  induction reaped with
  | nil => intro l; simp [reap_bg_jobs]
  | cons p more ih =>
    intro l
    unfold reap_bg_jobs
    by_cases hp : p > 0
    · simp only [hp, if_true]
      split
      · rename_i entry head _
        have := ih { head := head, length := l.length - 1 }
        simp only at this ⊢
        omega
      · exact ih l
    · simp [hp]

theorem check_sigchld_step (st : ShellState) (env : Env) :
    table_step st (check_sigchld st env).2 := by
  unfold check_sigchld
  simp only
  split
  · exact ⟨rfl, Or.inl (reap_bg_jobs_length_le env.reaped st.bg_list)⟩
  · exact ⟨rfl, Or.inl (le_refl _)⟩

theorem builtin_cd_step (st : ShellState) (env : Env) (job : job_info) (proc : proc_info)
    (st1 : ShellState) (h : (builtin_cd st env job proc).2 = .next st1) : table_step st st1 := by
  unfold builtin_cd at h
  simp only at h
  split at h
  · simp only [Ending.next.injEq] at h; subst h; exact table_step_refl st
  · split at h <;>
      (simp only [Ending.next.injEq] at h; subst h; exact table_step_refl st)

theorem fg_wait_step (st : ShellState) (env : Env) (job : job_info) (target_pid : Int)
    (target_entry : bgentry_t) (rest : List bgentry_t) (st1 : ShellState)
    (h : (fg_wait st env job target_pid target_entry rest).2 = .next st1) :
    table_step st st1 := by
  unfold fg_wait at h
  simp only [Ending.next.injEq] at h
  subst h
  refine ⟨rfl, Or.inl ?_⟩
  simp only
  omega

theorem builtin_fg_step (st : ShellState) (env : Env) (job : job_info) (proc : proc_info)
    (st1 : ShellState) (h : (builtin_fg st env job proc).2 = .next st1) : table_step st st1 := by
  unfold builtin_fg at h
  split at h
  · simp only [Ending.next.injEq] at h; subst h; exact table_step_refl st
  · split at h
    · split at h
      · simp at h
      · exact fg_wait_step _ _ _ _ _ _ _ h
    · split at h
      · simp at h
      · simp only at h
        split at h
        · simp only [Ending.next.injEq] at h; subst h; exact table_step_refl st
        · exact fg_wait_step _ _ _ _ _ _ _ h

theorem parent_after_launch_step (st : ShellState) (env : Env) (job : job_info) (pid : Int)
    (pids : Nat → Int) (st1 : ShellState)
    (h : (parent_after_launch st env job pid pids).2 = .next st1) : table_step st st1 := by
  unfold parent_after_launch at h
  split at h
  · split at h
    · split at h
      · simp only [Ending.next.injEq] at h; subst h; exact table_step_refl st
      · simp only at h
        split at h
        · simp only [Ending.next.injEq] at h; subst h; exact table_step_refl st
        · simp at h
    · rename_i hcap
      simp only [Ending.next.injEq] at h
      subst h
      exact ⟨rfl, Or.inr ⟨rfl, hcap⟩⟩
  · split at h
    · simp only at h
      split at h
      · simp at h
      · simp only [Ending.next.injEq] at h; subst h; exact ⟨rfl, Or.inl (le_refl _)⟩
    · simp only at h
      split at h
      · simp at h
      · simp only [Ending.next.injEq] at h; subst h; exact ⟨rfl, Or.inl (le_refl _)⟩

theorem run_job_step (st : ShellState) (env : Env) (job : job_info) (st1 : ShellState)
    (h : (run_job st env job).2 = .next st1) : table_step st st1 := by
  unfold run_job at h
  split at h
  · simp only [Ending.next.injEq] at h; subst h; exact table_step_refl st
  · split at h
    · simp only [Ending.next.injEq] at h; subst h; exact table_step_refl st
    · split at h
      · simp at h
      · split at h
        · simp [builtin_exit] at h
        · split at h
          · exact builtin_cd_step _ _ _ _ _ h
          · split at h
            · simp only [Ending.next.injEq] at h; subst h; exact table_step_refl st
            · split at h
              · simp only [Ending.next.injEq] at h; subst h; exact table_step_refl st
              · split at h
                · exact builtin_fg_step _ _ _ _ _ h
                · simp only at h
                  split at h
                  · simp at h
                  · exact parent_after_launch_step _ _ _ _ _ _ h

theorem cap_of_step (st st1 : ShellState) (h : table_step st st1)
    (hcap : 0 < st.max_bgprocs) (hlen : st.bg_list.length ≤ st.max_bgprocs) :
    st1.max_bgprocs = st.max_bgprocs ∧ st1.bg_list.length ≤ st1.max_bgprocs := by
  obtain ⟨h1, h2⟩ := h
  refine ⟨h1, ?_⟩
  rcases h2 with h2 | ⟨h2, h3⟩
  · omega
  · have : st.bg_list.length < st.max_bgprocs := by
      by_contra hc
      exact h3 ⟨hcap, by omega⟩
    omega

theorem loop_body_cap (st : ShellState) (env : Env) (job : Option job_info) (st1 : ShellState)
    (h : (loop_body st env job).2 = .next st1)
    (hcap : 0 < st.max_bgprocs) (hlen : st.bg_list.length ≤ st.max_bgprocs) :
    st1.max_bgprocs = st.max_bgprocs ∧ st1.bg_list.length ≤ st1.max_bgprocs := by
  obtain ⟨c1, c2⟩ := cap_of_step st _ (check_sigchld_step st env) hcap hlen
  unfold loop_body at h
  simp only at h
  cases job with
  | none =>
    simp only [later, Ending.next.injEq] at h
    subst h
    exact ⟨c1, c2⟩
  | some job =>
    simp only at h
    cases hr : (run_job (check_sigchld st env).2 env job).2 with
    | halt x => rw [hr] at h; simp [later] at h
    | next st2 =>
      rw [hr] at h
      simp only [later, Ending.next.injEq] at h
      subst h
      obtain ⟨r1, r2⟩ := cap_of_step _ st2 (run_job_step _ env job st2 hr) (by omega) c2
      exact ⟨by simp only; omega, r2⟩

theorem state_after_cap (inputs : List (Env × Option job_info)) :
    ∀ st : ShellState, 0 < st.max_bgprocs → st.bg_list.length ≤ st.max_bgprocs →
      (state_after st inputs).max_bgprocs = st.max_bgprocs ∧
      (state_after st inputs).bg_list.length ≤ st.max_bgprocs := by
  induction inputs with
  | nil => intro st _ h; exact ⟨rfl, h⟩
  | cons x more ih =>
    intro st hcap hlen
    obtain ⟨env, job⟩ := x
    unfold state_after
    cases hr : (loop_body st env job).2 with
    | halt x => exact ⟨rfl, hlen⟩
    | next st1 =>
      obtain ⟨h1, h2⟩ := loop_body_cap st env job st1 hr hcap hlen
      obtain ⟨h3, h4⟩ := ih st1 (by omega) h2
      simp only
      exact ⟨by omega, by omega⟩

/-! ## Capacity -/

/-- C5: with a positive capacity and a table whose length has reached it, the
parent, after launching a background job, kills and waits on every process it
just forked (the single pid, or the pids of all stages in order), then prints
the capacity error and releases the job; the shell state, with the table, is
unchanged. And from an empty table the length never exceeds a positive
capacity, whatever lines the shell reads. -/
theorem capacity_invariant (st : ShellState) (env : Env) (job : job_info) (tr : List Event)
    (pid : Int) (pids : Nat → Int)
    (hcap : 0 < st.max_bgprocs) (hfull : st.max_bgprocs ≤ st.bg_list.length)
    (hbg : job.bg = true) (hl : launch env job = (tr, .parent pid pids)) :
    parent_after_launch st env job pid pids =
      ((if job.nproc = 1 then
          [.kill (env.fork_ret 0) SIGKILL, .waitpid (env.fork_ret 0) 0]
        else (List.range job.nproc.toNat).flatMap (fun j =>
          [.pids_load j, .kill (env.fork_ret j) SIGKILL, .waitpid (env.fork_ret j) 0])) ++
        [.fprintf_stderr .BG_ERR, .free_job job, .free_line], .next st) ∧
    (∀ j : Nat, (j : Int) < job.nproc → .fork (env.fork_ret j) ∈ tr) ∧
    (∀ (s0 : ShellState) (inputs : List (Env × Option job_info)),
      0 < s0.max_bgprocs → s0.bg_list.length = 0 →
      (state_after s0 inputs).bg_list.length ≤ s0.max_bgprocs) ∧
    (∀ (arg : Option CStr) (s0 : ShellState) (inputs : List (Env × Option job_info)),
      main_init arg = some s0 → 0 < s0.max_bgprocs →
      (state_after s0 inputs).bg_list.length ≤ s0.max_bgprocs) := by
  have hfull2 : st.max_bgprocs > 0 ∧ st.bg_list.length ≥ st.max_bgprocs := ⟨hcap, hfull⟩
  refine ⟨?_, ?_, ?_, ?_⟩
  · unfold parent_after_launch
    rcases launch_parent env job tr pid pids hl with ⟨h1, h2, _, _⟩ | ⟨n, h1, h2, h3, _, h5, _⟩
    · simp only [hbg, if_true, hfull2, and_self, h1, h2, List.cons_append, List.nil_append]
    · have hne : ¬ job.nproc = 1 := by omega
      have hto : job.nproc.toNat = n := by omega
      have hk := kill_children_ok pids n 0 (by omega)
      simp only [hbg, if_true, hfull2, and_self, hne, if_false, hto, hk, List.range_eq_range']
      congr 2
      apply List.flatMap_congr
      intro j hj
      have hjn : j < n := by
        have := (List.mem_range'_1.mp hj).2
        omega
      rw [(h5 j hjn).1]
  · intro j hj
    rcases launch_parent env job tr pid pids hl with ⟨h1, h2, _, h4⟩ | ⟨n, h1, _, _, _, _, h6⟩
    · have : j = 0 := by omega
      subst this
      rw [h4, h2]
      simp
    · have hjn : j < n := by omega
      rw [h6]
      simp only [List.mem_append, List.mem_flatMap, List.mem_range'_1]
      left; left; right
      exact ⟨j, ⟨by omega, by omega⟩, by simp⟩
  · intro s0 inputs h0 hempty
    exact (state_after_cap inputs s0 h0 (by omega)).2
  · intro arg s0 inputs hinit h0
    have hempty : s0.bg_list.length = 0 := by
      unfold main_init at hinit
      cases arg with
      | none =>
        simp only [Option.some.injEq] at hinit
        subst hinit
        rfl
      | some a =>
        simp only at hinit
        split at hinit
        · simp only [Option.some.injEq] at hinit
          subst hinit
          rfl
        · cases hinit
    exact (state_after_cap inputs s0 h0 (by omega)).2

/-- Instance of C5: the two-stage background job `a | a &` at capacity 1 with
one entry in the table. -/
theorem capacity_invariant_witness :
    parent_after_launch state_full env_idle job_pipe_bg (env_idle.fork_ret 1) pids_two =
      ((if job_pipe_bg.nproc = 1 then
          [.kill (env_idle.fork_ret 0) SIGKILL, .waitpid (env_idle.fork_ret 0) 0]
        else (List.range job_pipe_bg.nproc.toNat).flatMap (fun j =>
          [.pids_load j, .kill (env_idle.fork_ret j) SIGKILL,
            .waitpid (env_idle.fork_ret j) 0])) ++
        [.fprintf_stderr .BG_ERR, .free_job job_pipe_bg, .free_line], .next state_full) ∧
    (∀ j : Nat, (j : Int) < job_pipe_bg.nproc → .fork (env_idle.fork_ret j) ∈
      [Event.pipe 0, .fork 100, .pids_store 0 100, .fork 101, .pids_store 1 101,
        .close (.pipefds 0 0), .close (.pipefds 0 1), .pids_load 1]) ∧
    (∀ (s0 : ShellState) (inputs : List (Env × Option job_info)),
      0 < s0.max_bgprocs → s0.bg_list.length = 0 →
      (state_after s0 inputs).bg_list.length ≤ s0.max_bgprocs) ∧
    (∀ (arg : Option CStr) (s0 : ShellState) (inputs : List (Env × Option job_info)),
      main_init arg = some s0 → 0 < s0.max_bgprocs →
      (state_after s0 inputs).bg_list.length ≤ s0.max_bgprocs) :=
  capacity_invariant state_full env_idle job_pipe_bg
    [.pipe 0, .fork 100, .pids_store 0 100, .fork 101, .pids_store 1 101,
      .close (.pipefds 0 0), .close (.pipefds 0 1), .pids_load 1]
    (env_idle.fork_ret 1) pids_two (by decide) (by decide) rfl rfl

/-! ## Exit-status translation -/

/-- C3: the status of a normal exit with code `c` translates to `c`, the
status of a death by signal `sig` to `128 + sig`, any other status to itself
(so exit code 7 gives 7 and signal 9 gives 137); and the foreground path (one
stage, or the last stage of a pipeline) and the built-in `fg` store exactly
this translation of the status `waitpid` returned as the last exit status. -/
theorem exit_status_translated (st : ShellState) (env : Env) (job : job_info) (tr : List Event)
    (pid : Int) (pids : Nat → Int) (fg_job : job_info) (target_pid : Int)
    (target_entry : bgentry_t) (rest : List bgentry_t)
    (hfg : job.bg = false) (hl : launch env job = (tr, .parent pid pids))
    (hw : ∀ j : Nat, (j : Int) < job.nproc → 0 ≤ (env.waitpid_ret j).1) :
    parent_after_launch st env job pid pids =
      ((if job.nproc = 1 then [.waitpid (env.fork_ret 0) 0]
        else (List.range job.nproc.toNat).flatMap (fun j =>
          [.pids_load j, .waitpid (env.fork_ret j) 0])) ++ [.free_job job, .free_line],
        .next { st with last_exit_status :=
          exit_status_translation (env.waitpid_ret (job.nproc.toNat - 1)).2 }) ∧
    (fg_wait st env fg_job target_pid target_entry rest).2 =
      .next { st with
        last_exit_status := exit_status_translation (env.waitpid_ret 0).2
        bg_list := { head := rest, length := st.bg_list.length - 1 } } ∧
    (∀ c : Nat, c < 256 → exit_status_translation (256 * c) = (c : Int)) ∧
    (∀ sig core : Nat, 1 ≤ sig → sig ≤ 126 →
      exit_status_translation (sig + 128 * core) = 128 + (sig : Int)) ∧
    (∀ s : Nat, WIFEXITED s = false → WIFSIGNALED s = false →
      exit_status_translation s = (s : Int)) ∧
    exit_status_translation (256 * 7) = 7 ∧ exit_status_translation 9 = 137 := by
  have hcases := launch_parent env job tr pid pids hl
  have hw0 : ¬ (env.waitpid_ret 0).1 < 0 := by
    have : (0 : Int) < job.nproc := by
      rcases hcases with ⟨h1, _⟩ | ⟨n, h1, h2, _⟩ <;> omega
    have := hw 0 (by simpa using this)
    omega
  refine ⟨?_, ?_, translation_exited, translation_signaled, ?_, translation_exited 7 (by decide),
    translation_signaled 9 0 (by decide) (by decide)⟩
  · unfold parent_after_launch
    rcases hcases with ⟨h1, h2, _, _⟩ | ⟨n, h1, h2, h3, _, h5, _⟩
    · simp only [hfg, Bool.false_eq_true, if_false, h1, if_true, hw0, h2, exit_status_translation]
      rfl
    · have hne : ¬ job.nproc = 1 := by omega
      have hto : job.nproc.toNat = n := by omega
      have hwn : ∀ j, j < n → 0 ≤ (env.waitpid_ret j).1 := fun j hj => hw j (by omega)
      obtain ⟨w1, w2⟩ := wait_children_done env n pids hwn h3 n 0 st.last_exit_status (by omega)
      have hn0 : ¬ n = 0 := by omega
      rw [if_neg hn0] at w1
      simp only [hfg, Bool.false_eq_true, if_false, hne, hto]
      rw [h1]
      simp only [w1, w2, List.range_eq_range']
      congr 2
      apply List.flatMap_congr
      intro j hj
      have hjn : j < n := by
        have := (List.mem_range'_1.mp hj).2
        omega
      rw [(h5 j hjn).1]
  · unfold fg_wait
    simp only [hw0, if_false, exit_status_translation]
    congr 2
    split <;> [rfl; (split <;> rfl)]
  · intro s h1 h2
    simp [exit_status_translation, h1, h2]

/-- Instance of C3: a foreground child and a job brought to the foreground
that exit with code 7 leave 7 as the last exit status. -/
theorem exit_status_translated_witness :
    parent_after_launch (state_with { head := [entry_a 7 100], length := 1 }) env_exit7 job_a_fg
        100 env_exit7.pids_before =
      ([.waitpid 100 0, .free_job job_a_fg, .free_line],
        .next { state_with { head := [entry_a 7 100], length := 1 } with
          last_exit_status := 7 }) ∧
    (fg_wait (state_with { head := [entry_a 7 100], length := 1 }) env_exit7 job_fg 7
        (entry_a 7 100) []).2 =
      .next { state_with { head := [entry_a 7 100], length := 1 } with
        last_exit_status := 7, bg_list := { head := [], length := 0 } } := by
  have h := exit_status_translated (state_with { head := [entry_a 7 100], length := 1 })
    env_exit7 job_a_fg [.fork 100] 100 env_exit7.pids_before job_fg 7 (entry_a 7 100) []
    rfl rfl (fun j _ => by
      show (0 : Int) ≤ 100 + (j : Int)
      omega)
  have e7 : exit_status_translation (env_exit7.waitpid_ret 0).2 = 7 := by decide
  have e7b : exit_status_translation (env_exit7.waitpid_ret (job_a_fg.nproc.toNat - 1)).2 = 7 := by
    decide
  rw [e7, e7b] at h
  exact ⟨h.1, h.2.1⟩

/-! ## The array `pids` -/

theorem mem_pids_indices (tr : List Event) (x : Nat) :
    x ∈ pids_indices tr ↔ ∃ e ∈ tr, pids_index e = some x := by
  simp [pids_indices, List.mem_filterMap]

theorem launch_indices (env : Env) (job : job_info) (h1 : job.nproc ≠ 1) (e : Event) (x : Nat)
    (he : e ∈ (launch env job).1) (hx : pids_index e = some x) : (x : Int) < job.nproc := by
  unfold launch at he
  simp only [h1, if_false] at he
  have hload : ∀ e0 : Event, e0 = .pids_load (job.nproc - 1).toNat → pids_index e0 = some x →
      ¬ job.nproc - 1 < 0 → (x : Int) < job.nproc := by
    intro e0 h0 h2 h3
    subst h0
    simp only [pids_index, Option.some.injEq] at h2
    omega
  have hfork : ∀ e0 : Event,
      e0 ∈ (fork_children env job (job.nproc - 1).toNat job.nproc.toNat 0 job.procs
        env.pids_before).1 → pids_index e0 = some x → (x : Int) < job.nproc := by
    intro e0 h0 h2
    have := fork_children_indices env job _ _ 0 _ _ e0 x h0 h2
    omega
  have hpipe : ∀ e0 : Event, e0 ∈ (create_pipes env (job.nproc - 1).toNat 0).1 →
      pids_index e0 = some x → (x : Int) < job.nproc := by
    intro e0 h0 h2
    rw [pids_index_create_pipes env _ 0 e0 h0] at h2
    cases h2
  have hclose : ∀ e0 : Event, e0 ∈ close_pipes (job.nproc - 1).toNat 0 →
      pids_index e0 = some x → (x : Int) < job.nproc := by
    intro e0 h0 h2
    rw [pids_index_close_pipes _ 0 e0 h0] at h2
    cases h2
  split at he
  · simp at he
  · rename_i hneg
    split at he
    · exact hpipe e he hx
    · split at he
      · simp only [List.mem_append] at he
        rcases he with he | he
        · exact hpipe e he hx
        · exact hfork e he hx
      · split at he <;>
        · simp only [List.mem_append, List.mem_singleton] at he
          rcases he with ((he | he) | he) | he
          · exact hpipe e he hx
          · exact hfork e he hx
          · exact hclose e he hx
          · exact hload e he hx hneg

theorem parent_after_launch_indices (st : ShellState) (env : Env) (job : job_info) (pid : Int)
    (pids : Nat → Int) (h1 : job.nproc ≠ 1) (e : Event) (x : Nat)
    (he : e ∈ (parent_after_launch st env job pid pids).1) (hx : pids_index e = some x) :
    (x : Int) < job.nproc := by
  unfold parent_after_launch at he
  simp only [h1, if_false] at he
  have hkill : ∀ e0 : Event, e0 ∈ (kill_children pids job.nproc.toNat 0).1 →
      pids_index e0 = some x → (x : Int) < job.nproc := by
    intro e0 h0 h2
    have := kill_children_indices pids _ 0 e0 x h0 h2
    omega
  have hwait : ∀ e0 : Event,
      e0 ∈ (wait_children env job.nproc pids job.nproc.toNat 0 st.last_exit_status).1 →
      pids_index e0 = some x → (x : Int) < job.nproc := by
    intro e0 h0 h2
    have := wait_children_indices env job.nproc pids _ 0 _ e0 x h0 h2
    omega
  split at he
  · split at he
    · split at he
      · simp only [List.mem_append, List.mem_cons, List.mem_singleton, List.not_mem_nil,
          or_false] at he
        rcases he with he | rfl | rfl | rfl
        · exact hkill e he hx
        · simp [pids_index] at hx
        · simp [pids_index] at hx
        · simp [pids_index] at hx
      · exact hkill e he hx
    · simp only [List.mem_cons, List.mem_singleton, List.not_mem_nil, or_false] at he
      rcases he with rfl | rfl <;> simp [pids_index] at hx
  · split at he
    · exact hwait e he hx
    · simp only [List.mem_append, List.mem_cons, List.mem_singleton, List.not_mem_nil,
        or_false] at he
      rcases he with he | rfl | rfl
      · exact hwait e he hx
      · simp [pids_index] at hx
      · simp [pids_index] at hx

/-- C10: for a job with 2 to 10 stages every index at which the launcher
writes or reads `pids` (the stores of the fork loop, the read of the job
pid) and every index at which the capacity kill loop and the foreground wait
loop read it is below 10, whatever the system calls return; with 11 stages
and every `pipe` and `fork` succeeding the fork loop stores at index 10,
outside the array, and the launcher's behaviour is undefined from there. -/
theorem pids_indices_bounded (st : ShellState) (env : Env) (job : job_info) (pid : Int)
    (pids : Nat → Int) (h2 : 2 ≤ job.nproc) (h10 : job.nproc ≤ 10) :
    (∀ x ∈ pids_indices (launch env job).1, x < 10) ∧
    (∀ x ∈ pids_indices (parent_after_launch st env job pid pids).1, x < 10) ∧
    (∀ (env1 : Env) (job1 : job_info), job1.nproc = 11 → job1.procs ≠ [] →
      (∀ j, 0 ≤ env1.pipe_ret j) → (∀ j, 0 < env1.fork_ret j) →
      10 ∈ pids_indices (launch env1 job1).1 ∧ (launch env1 job1).2 = .stop .undefined) := by
  have hne : job.nproc ≠ 1 := by omega
  refine ⟨?_, ?_, ?_⟩
  · intro x hx
    obtain ⟨e, he, hxe⟩ := (mem_pids_indices _ x).mp hx
    have := launch_indices env job hne e x he hxe
    omega
  · intro x hx
    obtain ⟨e, he, hxe⟩ := (mem_pids_indices _ x).mp hx
    have := parent_after_launch_indices st env job pid pids hne e x he hxe
    omega
  · intro env1 job1 h11 hprocs hpipe hfork
    obtain ⟨o1, o2⟩ := fork_children_overflow env1 job1 10 hfork 11 0 job1.procs
      env1.pids_before hprocs (by decide) (by decide)
    have hcp := create_pipes_ok env1 hpipe 10 0
    have e1 : (launch env1 job1) =
        ((create_pipes env1 10 0).1 ++
          (fork_children env1 job1 10 11 0 job1.procs env1.pids_before).1,
          .stop .undefined) := by
      unfold launch
      simp only [h11]
      simp [hcp, o1]
    rw [e1]
    refine ⟨?_, rfl⟩
    rw [mem_pids_indices]
    exact ⟨_, List.mem_append_right _ o2, rfl⟩

/-- Instance of C10: three stages stay inside `pids`, eleven stages reach
index 10. -/
theorem pids_indices_bounded_witness :
    (∀ x ∈ pids_indices (launch env_idle job_three).1, x < 10) ∧
    (∀ x ∈ pids_indices (parent_after_launch (state_with { head := [], length := 0 }) env_idle
      job_three 102 env_idle.pids_before).1, x < 10) ∧
    (10 ∈ pids_indices (launch env_idle job_eleven).1 ∧
      (launch env_idle job_eleven).2 = .stop .undefined) :=
  have h := pids_indices_bounded (state_with { head := [], length := 0 }) env_idle job_three 102
    env_idle.pids_before (by decide) (by decide)
  ⟨h.1, h.2.1, h.2.2 env_idle job_eleven rfl (by decide) (fun _ => le_refl _)
    (fun j => by show (0 : Int) < 100 + (j : Int); omega)⟩

/-! ## Eleven stages -/

/-- C9 fails on the code for eleven stages: after the ten pipes and the
eleventh `fork` the launcher stores the pid at `pids[10]`, outside the array
`pid_t pids[10]`; its behaviour is undefined from there, so no pipe end is
closed in the parent and no job pid is reported. -/
theorem launch_eleven_stages_overflows :
    run_job (state_with { head := [], length := 0 }) env_idle job_eleven =
      ((List.range 10).map Event.pipe ++
        (List.range 11).flatMap (fun j => [.fork (100 + (j : Int)), .pids_store j (100 + (j : Int))]),
        .halt .undefined) ∧
    (pids_store env_idle.pids_before 10 (env_idle.fork_ret 10)).isNone = true := by
  decide

/-! ## Pipelines of 2 to 10 stages -/

theorem fork_children_parent (env : Env) (job : job_info) (np : Nat) (k : Nat) :
    ∀ (i : Nat) (proc : List proc_info) (pids : Nat → Int), proc ≠ [] → i + k ≤ PIDS_LEN →
      (∀ j, i ≤ j → j < i + k → 0 < env.fork_ret j) →
      ∃ pids1, (fork_children env job np k i proc pids).2 = .done pids1 := by
  induction k with
  | zero => intro i proc pids _ _ _; exact ⟨pids, rfl⟩
  | succ k ih =>
    intro i proc pids hproc hle hf
    have hi : i < PIDS_LEN := by omega
    have hr : ¬ env.fork_ret i < 0 := by have := hf i (by omega) (by omega); omega
    have hz : ¬ env.fork_ret i = 0 := by have := hf i (by omega) (by omega); omega
    cases proc with
    | nil => exact absurd rfl hproc
    | cons p ps =>
      obtain ⟨pids1, h1⟩ := ih (i + 1) (next_proc (p :: ps))
        (fun j => if j = i then env.fork_ret i else pids j) (next_proc_ne_nil _ hproc)
        (by omega) (fun j h1 h2 => hf j (by omega) (by omega))
      refine ⟨pids1, ?_⟩
      unfold fork_children
      simp only [pids_store, hi, if_true, hr, if_false, hz, h1]

/-- In the parent, a job of `n` stages (2 to 10) whose `pipe` and `fork` calls
all succeed is launched as follows: `n - 1` pipes, `n` forks (each pid stored
in `pids`), both ends of all `n - 1` pipes closed, and the pid of the last
stage read back as the job pid. -/
theorem launch_pipeline_parent (env : Env) (job : job_info) (n : Nat)
    (hn : job.nproc = (n : Int)) (h2 : 2 ≤ n) (h10 : n ≤ 10) (hprocs : job.procs ≠ [])
    (hpipe : ∀ j, 0 ≤ env.pipe_ret j) (hfork : ∀ j, j < n → 0 < env.fork_ret j) :
    ∃ pids, (∀ j, j < n → pids j = env.fork_ret j) ∧
      launch env job =
        ((List.range' 0 (n - 1)).map .pipe ++
          (List.range' 0 n).flatMap
            (fun j => [.fork (env.fork_ret j), .pids_store j (env.fork_ret j)]) ++
          close_pipes (n - 1) 0 ++ [.pids_load (n - 1)],
          .parent (env.fork_ret (n - 1)) pids) := by
  obtain ⟨pids1, hd⟩ := fork_children_parent env job (n - 1) n 0 job.procs env.pids_before
    hprocs (by unfold PIDS_LEN; omega) (fun j _ hj => hfork j (by omega))
  obtain ⟨_, _, f3, f4⟩ := fork_children_done env job (n - 1) n 0 job.procs env.pids_before
    pids1 hd
  have hval : ∀ j, j < n → pids1 j = env.fork_ret j := by
    intro j hj
    have : 0 ≤ j ∧ j < 0 + n := by omega
    rw [f3, if_pos this]
  refine ⟨pids1, hval, ?_⟩
  have hne : ¬ job.nproc = 1 := by omega
  have hneg : ¬ job.nproc - 1 < 0 := by omega
  have e1 : (job.nproc - 1).toNat = n - 1 := by omega
  have e2 : job.nproc.toNat = n := by omega
  have hlt : n - 1 < PIDS_LEN := by unfold PIDS_LEN; omega
  unfold launch
  simp only [hne, if_false, hneg, e1, e2, create_pipes_ok env hpipe (n - 1) 0, Bool.not_true,
    Bool.false_eq_true, hd, pids_load, hlt, if_true, f4, hval (n - 1) (by omega)]

theorem fork_children_child (env : Env) (job : job_info) (np i : Nat) (p : proc_info)
    (hi : i < PIDS_LEN) (hz : env.fork_ret i = 0) (k : Nat) :
    ∀ (i0 : Nat) (proc : List proc_info) (pids : Nat → Int), i0 ≤ i → i < i0 + k →
      proc.get? (i - i0) = some p → (∀ j, i0 ≤ j → j < i → 0 < env.fork_ret j) →
      fork_children env job np k i0 proc pids =
        ((List.range' i0 (i - i0)).flatMap
            (fun j => [.fork (env.fork_ret j), .pids_store j (env.fork_ret j)]) ++
          .fork 0 :: .pids_store i 0 :: (pipeline_child env job np i p).1,
          .stop (pipeline_child env job np i p).2) := by
  induction k with
  | zero => intro i0 proc pids h1 h2; omega
  | succ k ih =>
    intro i0 proc pids h1 h2 hp hf
    by_cases he : i0 = i
    · subst he
      cases proc with
      | nil => simp at hp
      | cons q qs =>
        simp only [Nat.sub_self, List.get?_cons_zero, Option.some.injEq] at hp
        subst hp
        unfold fork_children
        simp [pids_store, hi, hz, List.range']
    · have hi0 : i0 < PIDS_LEN := by omega
      have hr : ¬ env.fork_ret i0 < 0 := by have := hf i0 (by omega) (by omega); omega
      have hz0 : ¬ env.fork_ret i0 = 0 := by have := hf i0 (by omega) (by omega); omega
      have hsub : i - i0 = (i - (i0 + 1)) + 1 := by omega
      cases proc with
      | nil => simp at hp
      | cons q qs =>
        rw [hsub, List.get?_cons_succ] at hp
        cases qs with
        | nil => simp at hp
        | cons q2 qs2 =>
          have hnext : next_proc (q :: q2 :: qs2) = q2 :: qs2 := rfl
          have := ih (i0 + 1) (q2 :: qs2)
            (fun j => if j = i0 then env.fork_ret i0 else pids j) (by omega) (by omega) hp
            (fun j h3 h4 => hf j (by omega) h4)
          unfold fork_children
          simp only [pids_store, hi0, if_true, hr, if_false, hz0, hnext, this]
          rw [hsub]
          simp [List.range', List.flatMap_cons]

/-- In the child of stage `i` of a job of `n` stages (2 to 10), after the
forks of the earlier stages: the read end of pipe `i - 1` is duplicated onto
standard input when `i > 0`, the write end of pipe `i` onto standard output
when `i < n - 1`, both ends of all `n - 1` pipes are closed, and then the
command of stage `i` is executed. -/
theorem launch_pipeline_child (env : Env) (job : job_info) (n i : Nat) (p : proc_info)
    (hn : job.nproc = (n : Int)) (h2 : 2 ≤ n) (h10 : n ≤ 10) (hi : i < n)
    (hp : job.procs.get? i = some p) (hpipe : ∀ j, 0 ≤ env.pipe_ret j)
    (hfork : ∀ j, j < i → 0 < env.fork_ret j) (hz : env.fork_ret i = 0) :
    launch env job =
      ((List.range' 0 (n - 1)).map .pipe ++
        ((List.range' 0 i).flatMap
            (fun j => [.fork (env.fork_ret j), .pids_store j (env.fork_ret j)]) ++
          .fork 0 :: .pids_store i 0 ::
            ((if i > 0 then [.dup2 (.pipefds (i - 1) 0) .STDIN_FILENO] else []) ++
              (if i < n - 1 then [.dup2 (.pipefds i 1) .STDOUT_FILENO] else []) ++
              close_pipes (n - 1) 0 ++ (exec_child env job p).1)),
        .stop (exec_child env job p).2) := by
  have hne : ¬ job.nproc = 1 := by omega
  have hneg : ¬ job.nproc - 1 < 0 := by omega
  have e1 : (job.nproc - 1).toNat = n - 1 := by omega
  have e2 : job.nproc.toNat = n := by omega
  have hfc := fork_children_child env job (n - 1) i p (by unfold PIDS_LEN; omega) hz n 0
    job.procs env.pids_before (by omega) (by omega) (by simpa using hp)
    (fun j _ hj => hfork j hj)
  unfold launch
  simp only [hne, if_false, hneg, e1, e2, create_pipes_ok env hpipe (n - 1) 0, Bool.not_true,
    Bool.false_eq_true, hfc, Nat.sub_zero, pipeline_child]

end Icssh
